import Mathlib

/-!
# boyfriend: a brainfuck interpreter (src/boyfriend.c)

A shallow embedding of `tick_interpreter`, `init_interpreter` and the driving
loop of `main`, with the properties of the interpreter stated over it.

Modelling conventions.

* Pointers are modelled by their offset from the start of their buffer
  (`exec_ptr - exec_buf`, `mem_ptr - mem_buf`), as integers.
* A buffer is a function from offsets to contents together with its size
  field. Offsets outside `[0, size)` are the bytes that happen to lie next to
  the buffer: the two bracket scans of the source read `exec_buf[exec_size]`
  and `exec_buf[-1]`, and every statement below holds for whatever is stored
  there.
* Program bytes are natural numbers (`'+'` is 43, `'-'` 45, `'>'` 62,
  `'<'` 60, `'.'` 46, `','` 44, `'['` 91, `']'` 93).
* Tape cells are C `int`s: integers kept in `[-2^31, 2^31)` by `wrap_int`.
* Positions and the bracket counter are exact integers, and a comparison
  between an `int` and an `unsigned int` is the comparison of the two
  integers. This is what the C code computes when both pointers are at or
  after the start of their buffers and the offsets are below `2^31`. The
  position `exec_pos` of the two scans is an `int` in the source: the forward
  scan compares it as an `unsigned int`, the backward scan compares it with 0
  as an `int`, so a backward scan started at an offset of `2^31` or more
  stops at once in the source: the model of the backward scan is exact for
  offsets below `2^31`. The statements about single steps assume the
  pointers non-negative where it matters.
* The end check `exec_ptr - exec_buf >= exec_size` is a comparison of
  signed 64-bit values.
* `exit(2)` is an outcome of its own, carrying the message that was printed
  and the state at the moment of the exit.
-/

namespace Boyfriend

/-- The constant `MEMORY_SIZE` of the source. -/
def MEMORY_SIZE : Nat := 30000

/-- The struct `bf_state`, with the two standard streams the interpreter
touches made explicit: `stdin` is what is still to be read, `stdout` what has
been written so far (oldest byte first). -/
structure bf_state where
  exec_buf : Int → Nat
  exec_size : Nat
  exec_ptr : Int
  mem_buf : Int → Int
  mem_size : Nat
  mem_ptr : Int
  stdin : List Nat
  stdout : List Nat

/-- The four messages written to standard error before `exit(2)`. -/
inductive bf_fault where
  | oob_right
  | oob_left
  | unmatched_open
  | unmatched_close
  deriving DecidableEq, Repr

/-- What one call of `tick_interpreter` does: it returns `true` or `false`,
or the process exits with a status and a message. -/
inductive tick_result where
  | ret (cont : Bool) (s : bf_state)
  | exited (code : Nat) (msg : bf_fault) (s : bf_state)

/-- Two's-complement wraparound of a C `int`. -/
def wrap_int (v : Int) : Int := (v + 2147483648) % 4294967296 - 2147483648

/-- The cell under the memory pointer, `*state->mem_ptr`. -/
def cur_cell (s : bf_state) : Int := s.mem_buf s.mem_ptr

/-- The assignment `*state->mem_ptr = v`. -/
def set_cell (s : bf_state) (v : Int) : bf_state :=
  { s with mem_buf := fun p => if p = s.mem_ptr then v else s.mem_buf p }

/-- The statement `state->exec_ptr++; return true;` that ends a step. -/
def advance (s : bf_state) : tick_result :=
  .ret true { s with exec_ptr := s.exec_ptr + 1 }

/-- The value `getchar()` returns: the next byte as an `unsigned char`, or
`EOF` (-1) when standard input is exhausted. -/
def getchar_value (inp : List Nat) : Int :=
  match inp with
  | [] => -1
  | b :: _ => ((b % 256 : Nat) : Int)

/-- The byte `putchar(c)` writes: `c` converted to `unsigned char`. -/
def putchar_byte (c : Int) : Nat := (c % 256).toNat

/-- One update of `bracket_count` in the forward scan. -/
def count_fwd (c : Nat) (bc : Int) : Int :=
  if c = 91 then bc + 1 else if c = 93 then bc - 1 else bc

/-- One update of `bracket_count` in the backward scan. -/
def count_bwd (c : Nat) (bc : Int) : Int :=
  if c = 91 then bc - 1 else if c = 93 then bc + 1 else bc

/-- The loop `for (int bracket_count = 0; exec_pos < state->exec_size;
++state->exec_ptr) { ... }` of case `'['`, as a function of the loop
variables; it returns the final `exec_ptr` and `exec_pos`. The first argument
bounds the number of loop tests; `tick_interpreter` passes a bound the loop
never reaches (`scan_fwd_fuel_irrel`). -/
def scan_fwd (buf : Int → Nat) (size : Nat) : Nat → Int → Int → Int → Int × Int
  | 0, ptr, exec_pos, _ => (ptr, exec_pos)
  | fuel + 1, ptr, exec_pos, bc =>
    if exec_pos < (size : Int) then
      let bc1 := count_fwd (buf ptr) bc
      if bc1 = 0 then (ptr, ptr) else scan_fwd buf size fuel (ptr + 1) ptr bc1
    else (ptr, exec_pos)

/-- The loop `for (int bracket_count = 0; exec_pos >= 0; --state->exec_ptr)
{ ... }` of case `']'`; it returns the final `exec_ptr` and `exec_pos`. The
first argument bounds the number of loop tests, as in `scan_fwd`
(`scan_bwd_fuel_irrel`). The source assigns the offset to the `int`
`exec_pos`; here `exec_pos` is the offset itself, which is the same value for
a scan started below offset `2^31`. -/
def scan_bwd (buf : Int → Nat) : Nat → Int → Int → Int → Int × Int
  | 0, ptr, exec_pos, _ => (ptr, exec_pos)
  | fuel + 1, ptr, exec_pos, bc =>
    if 0 ≤ exec_pos then
      let bc1 := count_bwd (buf ptr) bc
      if bc1 = 0 then (ptr, ptr) else scan_bwd buf fuel (ptr - 1) ptr bc1
    else (ptr, exec_pos)

/-- A number of loop tests the forward scan started at `ptr` cannot exceed. -/
def fwd_fuel (size : Nat) (ptr : Int) : Nat := ((size : Int) + 1 - ptr).toNat + 1

/-- A number of loop tests the backward scan started at `ptr` cannot exceed. -/
def bwd_fuel (ptr : Int) : Nat := (ptr + 1).toNat + 2

/-- The function `tick_interpreter`: execute one instruction. -/
def tick_interpreter (s : bf_state) : tick_result :=
  if (s.exec_size : Int) ≤ s.exec_ptr then .ret false s
  else
    let mem_pos := s.mem_ptr
    let c := s.exec_buf s.exec_ptr
    if c = 43 then advance (set_cell s (wrap_int (cur_cell s + 1)))
    else if c = 45 then advance (set_cell s (wrap_int (cur_cell s - 1)))
    else if c = 62 then
      if (s.mem_size : Int) ≤ mem_pos + 1 then .exited 2 .oob_right s
      else advance { s with mem_ptr := s.mem_ptr + 1 }
    else if c = 60 then
      if mem_pos = 0 then .exited 2 .oob_left s
      else advance { s with mem_ptr := s.mem_ptr - 1 }
    else if c = 46 then
      advance { s with stdout := s.stdout ++ [putchar_byte (cur_cell s)] }
    else if c = 44 then
      advance { set_cell s (getchar_value s.stdin) with stdin := s.stdin.tail }
    else if c = 91 then
      if cur_cell s ≠ 0 then advance s
      else
        let r := scan_fwd s.exec_buf s.exec_size (fwd_fuel s.exec_size s.exec_ptr) s.exec_ptr 1 0
        if r.2 = (s.mem_size : Int) then .exited 2 .unmatched_open { s with exec_ptr := r.1 }
        else advance { s with exec_ptr := r.1 }
    else if c = 93 then
      if cur_cell s = 0 then advance s
      else
        let r := scan_bwd s.exec_buf (bwd_fuel s.exec_ptr) s.exec_ptr 1 0
        if r.2 < 0 then .exited 2 .unmatched_close { s with exec_ptr := r.1 }
        else advance { s with exec_ptr := r.1 }
    else advance s

/-- The buffer `init_interpreter` fills from the file: the file's bytes at
offsets `[0, len)`, and `heap` (whatever lies next to the allocation)
elsewhere. -/
def load_exec (file : List Nat) (heap : Int → Nat) : Int → Nat :=
  fun p => if 0 ≤ p ∧ p < (file.length : Int) then file.getD p.toNat 0 else heap p

/-- The function `init_interpreter`, given the contents of the file, the
bytes around the instruction buffer and the bytes waiting on standard input. -/
def init_interpreter (file : List Nat) (heap : Int → Nat) (input : List Nat) : bf_state where
  exec_buf := load_exec file heap
  exec_size := file.length
  exec_ptr := 0
  mem_buf := fun _ => 0
  mem_size := MEMORY_SIZE
  mem_ptr := 0
  stdin := input
  stdout := []

/-- The loop `while (tick_interpreter(&state)) {}` of `main`, for at most
`fuel` calls; `none` when the loop is still running after that many. -/
def run : Nat → bf_state → Option tick_result
  | 0, _ => none
  | fuel + 1, s =>
    match tick_interpreter s with
    | .ret true s1 => run fuel s1
    | r => some r

/-- The states `main` can be in between two calls of `tick_interpreter`:
the initial one, and every state a call left behind on returning. -/
inductive reachable (s0 : bf_state) : bf_state → Prop where
  | start : reachable s0 s0
  | tick (s s1 : bf_state) (b : Bool) :
      reachable s0 s → tick_interpreter s = .ret b s1 → reachable s0 s1

/-- The eight command bytes. -/
def is_command (c : Nat) : Prop :=
  c = 43 ∨ c = 45 ∨ c = 62 ∨ c = 60 ∨ c = 46 ∨ c = 44 ∨ c = 91 ∨ c = 93

instance (c : Nat) : Decidable (is_command c) := by
  unfold is_command; infer_instance

/-- The bracket depth of the spec's forward scan after the `n` bytes at
`i, i+1, ..., i+n-1`: it starts at 0, `[` increments it, `]` decrements it,
every other byte leaves it alone. -/
def depth_fwd (buf : Int → Nat) (i : Int) : Nat → Int
  | 0 => 0
  | n + 1 => count_fwd (buf (i + n)) (depth_fwd buf i n)

/-- The bracket depth of the spec's backward scan after the `n` bytes at
`j, j-1, ..., j-n+1`: it starts at 0, `]` increments it, `[` decrements it. -/
def depth_bwd (buf : Int → Nat) (j : Int) : Nat → Int
  | 0 => 0
  | n + 1 => count_bwd (buf (j - n)) (depth_bwd buf j n)

/-- The byte at `j` is the `]` that matches the bracket at `i`: scanning
forward from `i`, the depth is back to 0 at `j` for the first time. -/
def matches_close (buf : Int → Nat) (i j : Int) : Prop :=
  i < j ∧ buf j = 93 ∧ depth_fwd buf i ((j - i).toNat + 1) = 0 ∧
    ∀ n, n < (j - i).toNat → depth_fwd buf i (n + 1) ≠ 0

/-- The byte at `i` is the `[` that matches the bracket at `j`: scanning
backward from `j`, the depth is back to 0 at `i` for the first time. -/
def matches_open (buf : Int → Nat) (j i : Int) : Prop :=
  i < j ∧ buf i = 91 ∧ depth_bwd buf j ((j - i).toNat + 1) = 0 ∧
    ∀ n, n < (j - i).toNat → depth_bwd buf j (n + 1) ≠ 0

instance (buf : Int → Nat) (i j : Int) : Decidable (matches_close buf i j) := by
  unfold matches_close; infer_instance

instance (buf : Int → Nat) (i j : Int) : Decidable (matches_open buf j i) := by
  unfold matches_open; infer_instance

/-- What a step can do to the state, whatever the instruction: the program,
its size and the tape capacity stay as they are, and the memory pointer
moves by at most one cell, never out of the tape. -/
def step_frame (s s1 : bf_state) : Prop :=
  s1.exec_buf = s.exec_buf ∧ s1.exec_size = s.exec_size ∧ s1.mem_size = s.mem_size ∧
    (s1.mem_ptr = s.mem_ptr ∨
      (s1.mem_ptr = s.mem_ptr + 1 ∧ s.mem_ptr + 1 < (s.mem_size : Int)) ∨
      (s1.mem_ptr = s.mem_ptr - 1 ∧ s.mem_ptr ≠ 0))

/-- A program of 30001 bytes: a `[` at offset 0, 29999 blanks, and the
matching `]` at offset 30000. -/
def long_loop : List Nat := 91 :: (List.replicate 29999 32 ++ [93])

/-! ### The structured reference semantics

The reference the interpreter is compared with: programs as nested loops,
where `[body]` means "while the current cell is nonzero, run body". -/

/-- A program with its brackets resolved: the end, a non-bracket byte
followed by the rest, or a loop `[body]` followed by the rest. -/
inductive bf_prog where
  | done : bf_prog
  | cmd (c : Nat) (rest : bf_prog) : bf_prog
  | loop (body rest : bf_prog) : bf_prog

/-- The bytes of a structured program: `[` body `]` for each loop. A byte
sequence has balanced brackets when it is `flatten p` for a `p` that is
`well_formed`. -/
def flatten : bf_prog → List Nat
  | .done => []
  | .cmd c rest => c :: flatten rest
  | .loop body rest => 91 :: (flatten body ++ 93 :: flatten rest)

/-- No `cmd` of the structured program is itself a bracket. -/
def well_formed : bf_prog → Prop
  | .done => True
  | .cmd c rest => c ≠ 91 ∧ c ≠ 93 ∧ well_formed rest
  | .loop body rest => well_formed body ∧ well_formed rest

/-- Well-formedness can be checked by running over the program. -/
def well_formed_decide : (p : bf_prog) → Decidable (well_formed p)
  | .done => isTrue trivial
  | .cmd c rest =>
    match well_formed_decide rest with
    | isTrue h =>
      if h1 : c = 91 then isFalse (fun w => w.1 h1)
      else if h2 : c = 93 then isFalse (fun w => w.2.1 h2)
      else isTrue ⟨h1, h2, h⟩
    | isFalse h => isFalse (fun w => h w.2.2)
  | .loop body rest =>
    match well_formed_decide body, well_formed_decide rest with
    | isTrue h1, isTrue h2 => isTrue ⟨h1, h2⟩
    | isFalse h1, _ => isFalse (fun w => h1 w.1)
    | _, isFalse h2 => isFalse (fun w => h2 w.2)

instance (p : bf_prog) : Decidable (well_formed p) := well_formed_decide p

/-- The machine of the reference semantics: tape, capacity, memory pointer
and the two streams; no instruction pointer. -/
structure ref_state where
  tape : Int → Int
  capacity : Nat
  ptr : Int
  input : List Nat
  output : List Nat

/-- How a reference run ends: normally, or with one of the faults. -/
inductive ref_result where
  | ok (m : ref_state)
  | fault (e : bf_fault) (m : ref_state)

/-- The effect of one non-bracket byte, from the spec's instruction table. -/
def ref_cmd (c : Nat) (m : ref_state) : ref_result :=
  if c = 43 then
    .ok { m with tape := fun p => if p = m.ptr then wrap_int (m.tape m.ptr + 1) else m.tape p }
  else if c = 45 then
    .ok { m with tape := fun p => if p = m.ptr then wrap_int (m.tape m.ptr - 1) else m.tape p }
  else if c = 62 then
    if (m.capacity : Int) ≤ m.ptr + 1 then .fault .oob_right m
    else .ok { m with ptr := m.ptr + 1 }
  else if c = 60 then
    if m.ptr = 0 then .fault .oob_left m else .ok { m with ptr := m.ptr - 1 }
  else if c = 46 then
    .ok { m with output := m.output ++ [putchar_byte (m.tape m.ptr)] }
  else if c = 44 then
    .ok { m with
      tape := fun p => if p = m.ptr then getchar_value m.input else m.tape p
      input := m.input.tail }
  else .ok m

/-- The reference run of a structured program, for at most `fuel` nested
steps (`none` when that is not enough): a loop is skipped when the current
cell is zero, and otherwise its body is run and the loop is tried again. -/
def ref_exec : Nat → bf_prog → ref_state → Option ref_result
  | 0, _, _ => none
  | _ + 1, .done, m => some (.ok m)
  | fuel + 1, .cmd c rest, m =>
    match ref_cmd c m with
    | .ok m1 => ref_exec fuel rest m1
    | r => some r
  | fuel + 1, .loop body rest, m =>
    if m.tape m.ptr = 0 then ref_exec fuel rest m
    else
      match ref_exec fuel body m with
      | some (.ok m1) => ref_exec fuel (.loop body rest) m1
      | r => r

/-- The fresh machine: a zeroed tape of 30000 cells, pointer on cell 0. -/
def ref_init (input : List Nat) : ref_state where
  tape := fun _ => 0
  capacity := MEMORY_SIZE
  ptr := 0
  input := input
  output := []

/-- A run of `n` blanks. -/
def blanks : Nat → bf_prog
  | 0 => .done
  | n + 1 => .cmd 32 (blanks n)

/-- The structured form of `long_loop`: one loop around 29999 blanks. -/
def long_loop_prog : bf_prog := .loop (blanks 29999) .done

/-- The first `n` calls of the loop of `main`: the calls go on while they
return true; the first result that is not a return of `true` (a stop or an
exit) is the result of the whole. -/
def tick_n : Nat → bf_state → tick_result
  | 0, s => .ret true s
  | n + 1, s =>
    match tick_interpreter s with
    | .ret true s1 => tick_n n s1
    | r => r

/-- The values a C `int` can hold. -/
def in_int_range (v : Int) : Prop := -2147483648 ≤ v ∧ v < 2147483648

instance (v : Int) : Decidable (in_int_range v) := by
  unfold in_int_range; infer_instance

/-- The bytes of `l` lie in the buffer from offset `a` on. -/
def seg (buf : Int → Nat) (a : Int) (l : List Nat) : Prop :=
  ∀ k : Nat, k < l.length → buf (a + k) = l.getD k 0

instance (buf : Int → Nat) (a : Int) (l : List Nat) : Decidable (seg buf a l) := by
  unfold seg; infer_instance

/-- A program of exactly 30000 bytes: a `[` followed by 29999 blanks, so a
`[` that nothing matches. -/
def open_then_blanks : List Nat := 91 :: List.replicate 29999 32

/-- The interpreter state and the reference machine hold the same tape,
memory pointer, capacity, pending input and output. -/
def sim (s : bf_state) (m : ref_state) : Prop :=
  s.mem_buf = m.tape ∧ s.mem_ptr = m.ptr ∧ s.mem_size = m.capacity ∧
    s.stdin = m.input ∧ s.stdout = m.output

/-- The end of a run of the interpreter agrees with the end of a reference
run: both end normally, or both end with the same fault, status 2 on the
interpreter's side, and in either case with the same tape, memory pointer,
input and output. -/
def agrees : tick_result → ref_result → Prop
  | .ret false s, .ok m => sim s m
  | .exited c e s, .fault e1 m => c = 2 ∧ e = e1 ∧ sim s m
  | _, _ => False

/-- The state is running the program `B` of size `sz` on a tape of capacity
`ms`. -/
def on_prog (B : Int → Nat) (sz ms : Nat) (s : bf_state) : Prop :=
  s.exec_buf = B ∧ s.exec_size = sz ∧ s.mem_size = ms

/-- What the interpreter does, started in `s`, when the reference run of a
piece of the program gives `r` with `fuel` nested steps: it reaches the
offset `endp` after the piece in a state that matches the reference machine;
or it exits with the same out-of-bounds fault; or, when the reference run is
out of fuel, it is still running after `fuel` calls. -/
def sim_outcome (B : Int → Nat) (sz ms fuel : Nat) (s : bf_state) (endp : Int) :
    Option ref_result → Prop
  | some (.ok m1) => ∃ k s1, tick_n k s = .ret true s1 ∧ s1.exec_ptr = endp ∧
      sim s1 m1 ∧ on_prog B sz ms s1
  | some (.fault e m1) => ∃ k s1, tick_n k s = .exited 2 e s1 ∧ sim s1 m1 ∧
      (e = .oob_right ∨ e = .oob_left)
  | none => ∃ k s1, fuel ≤ k ∧ tick_n k s = .ret true s1

/-- The nesting depth after the bytes of `l`, read from depth `d`: `[` opens
a level, `]` closes one, every other byte is ignored. It is `none` when a
`]` has nothing to close. -/
def bracket_depth : List Nat → Nat → Option Nat
  | [], d => some d
  | c :: l, d =>
    if c = 91 then bracket_depth l (d + 1)
    else if c = 93 then (if d = 0 then none else bracket_depth l (d - 1))
    else bracket_depth l d

/-- A program with balanced brackets, as a property of its bytes: no `]`
without an open `[` before it, and no `[` left open at the end. -/
def balanced (l : List Nat) : Prop := bracket_depth l 0 = some 0

instance (l : List Nat) : Decidable (balanced l) := by
  unfold balanced; infer_instance

/-- The bytes that close the loops still open: for each of them a `]` and
the structured program that follows it. -/
def closers : List bf_prog → List Nat
  | [] => []
  | q :: qs => 93 :: (flatten q ++ closers qs)

/-! ## One step, instruction by instruction -/

theorem tick_at_end (s : bf_state) (h : (s.exec_size : Int) ≤ s.exec_ptr) :
    tick_interpreter s = .ret false s := by
  unfold tick_interpreter
  rw [if_pos h]

theorem tick_plus (s : bf_state) (h : ¬ (s.exec_size : Int) ≤ s.exec_ptr)
    (hc : s.exec_buf s.exec_ptr = 43) :
    tick_interpreter s = advance (set_cell s (wrap_int (cur_cell s + 1))) := by
  unfold tick_interpreter
  simp only [h, hc, ↓reduceIte]

theorem tick_minus (s : bf_state) (h : ¬ (s.exec_size : Int) ≤ s.exec_ptr)
    (hc : s.exec_buf s.exec_ptr = 45) :
    tick_interpreter s = advance (set_cell s (wrap_int (cur_cell s - 1))) := by
  unfold tick_interpreter
  simp only [h, hc, ↓reduceIte, Nat.reduceEqDiff]

theorem tick_right (s : bf_state) (h : ¬ (s.exec_size : Int) ≤ s.exec_ptr)
    (hc : s.exec_buf s.exec_ptr = 62) :
    tick_interpreter s =
      if (s.mem_size : Int) ≤ s.mem_ptr + 1 then .exited 2 .oob_right s
      else advance { s with mem_ptr := s.mem_ptr + 1 } := by
  unfold tick_interpreter
  simp only [h, hc, ↓reduceIte, Nat.reduceEqDiff]

theorem tick_left (s : bf_state) (h : ¬ (s.exec_size : Int) ≤ s.exec_ptr)
    (hc : s.exec_buf s.exec_ptr = 60) :
    tick_interpreter s =
      if s.mem_ptr = 0 then .exited 2 .oob_left s
      else advance { s with mem_ptr := s.mem_ptr - 1 } := by
  unfold tick_interpreter
  simp only [h, hc, ↓reduceIte, Nat.reduceEqDiff]

theorem tick_dot (s : bf_state) (h : ¬ (s.exec_size : Int) ≤ s.exec_ptr)
    (hc : s.exec_buf s.exec_ptr = 46) :
    tick_interpreter s =
      advance { s with stdout := s.stdout ++ [putchar_byte (cur_cell s)] } := by
  unfold tick_interpreter
  simp only [h, hc, ↓reduceIte, Nat.reduceEqDiff]

theorem tick_comma (s : bf_state) (h : ¬ (s.exec_size : Int) ≤ s.exec_ptr)
    (hc : s.exec_buf s.exec_ptr = 44) :
    tick_interpreter s =
      advance { set_cell s (getchar_value s.stdin) with stdin := s.stdin.tail } := by
  unfold tick_interpreter
  simp only [h, hc, ↓reduceIte, Nat.reduceEqDiff]

theorem tick_open (s : bf_state) (h : ¬ (s.exec_size : Int) ≤ s.exec_ptr)
    (hc : s.exec_buf s.exec_ptr = 91) :
    tick_interpreter s =
      if cur_cell s ≠ 0 then advance s
      else if (scan_fwd s.exec_buf s.exec_size (fwd_fuel s.exec_size s.exec_ptr)
                s.exec_ptr 1 0).2 = (s.mem_size : Int) then
        .exited 2 .unmatched_open { s with exec_ptr :=
          (scan_fwd s.exec_buf s.exec_size (fwd_fuel s.exec_size s.exec_ptr) s.exec_ptr 1 0).1 }
      else advance { s with exec_ptr :=
          (scan_fwd s.exec_buf s.exec_size (fwd_fuel s.exec_size s.exec_ptr) s.exec_ptr 1 0).1 } := by
  unfold tick_interpreter
  simp only [h, hc, ↓reduceIte, Nat.reduceEqDiff]

theorem tick_close (s : bf_state) (h : ¬ (s.exec_size : Int) ≤ s.exec_ptr)
    (hc : s.exec_buf s.exec_ptr = 93) :
    tick_interpreter s =
      if cur_cell s = 0 then advance s
      else if (scan_bwd s.exec_buf (bwd_fuel s.exec_ptr) s.exec_ptr 1 0).2 < 0 then
        .exited 2 .unmatched_close { s with exec_ptr :=
          (scan_bwd s.exec_buf (bwd_fuel s.exec_ptr) s.exec_ptr 1 0).1 }
      else advance { s with exec_ptr :=
          (scan_bwd s.exec_buf (bwd_fuel s.exec_ptr) s.exec_ptr 1 0).1 } := by
  unfold tick_interpreter
  simp only [h, hc, ↓reduceIte, Nat.reduceEqDiff]

theorem tick_other (s : bf_state) (h : ¬ (s.exec_size : Int) ≤ s.exec_ptr)
    (hc : ¬ is_command (s.exec_buf s.exec_ptr)) :
    tick_interpreter s = advance s := by
  unfold is_command at hc
  simp only [not_or] at hc
  unfold tick_interpreter
  simp only [h, hc, ↓reduceIte]

/-! ## The two bracket scans -/

theorem count_fwd_add (c : Nat) (bc : Int) : count_fwd c bc = bc + count_fwd c 0 := by
  unfold count_fwd; split_ifs <;> omega

theorem count_bwd_add (c : Nat) (bc : Int) : count_bwd c bc = bc + count_bwd c 0 := by
  unfold count_bwd; split_ifs <;> omega

theorem depth_fwd_shift (buf : Int → Nat) (i : Int) (n : Nat) :
    depth_fwd buf i (n + 1) = count_fwd (buf i) 0 + depth_fwd buf (i + 1) n := by
  induction n with
  | zero => simp [depth_fwd]
  | succ n ih =>
    rw [depth_fwd, ih, depth_fwd, count_fwd_add, count_fwd_add _ (depth_fwd _ _ _)]
    have : i + ((n + 1 : Nat) : Int) = i + 1 + (n : Int) := by push_cast; ring
    rw [this]; ring

theorem depth_bwd_shift (buf : Int → Nat) (j : Int) (n : Nat) :
    depth_bwd buf j (n + 1) = count_bwd (buf j) 0 + depth_bwd buf (j - 1) n := by
  induction n with
  | zero => simp [depth_bwd]
  | succ n ih =>
    rw [depth_bwd, ih, depth_bwd, count_bwd_add, count_bwd_add _ (depth_bwd _ _ _)]
    have : j - ((n + 1 : Nat) : Int) = j - 1 - (n : Int) := by push_cast; ring
    rw [this]; ring

/-- The forward scan stops with a `break` on the first byte at which the
counter is back to 0, as long as the bytes before it lie inside the program. -/
theorem scan_fwd_break (buf : Int → Nat) (size : Nat) :
    ∀ (n fuel : Nat) (ptr e bc : Int), e < (size : Int) → ptr + n ≤ (size : Int) →
      (∀ m, m < n → bc + depth_fwd buf ptr (m + 1) ≠ 0) →
      bc + depth_fwd buf ptr (n + 1) = 0 → n < fuel →
      scan_fwd buf size fuel ptr e bc = (ptr + n, ptr + n) := by
  intro n
  induction n with
  | zero =>
    intro fuel ptr e bc he _ _ h0 hf
    obtain ⟨f, rfl⟩ : ∃ f, fuel = f + 1 := ⟨fuel - 1, by omega⟩
    have h1 : count_fwd (buf ptr) bc = 0 := by
      rw [count_fwd_add]; simpa [depth_fwd] using h0
    simp [scan_fwd, he, h1]
  | succ n ih =>
    intro fuel ptr e bc he hp hne h0 hf
    obtain ⟨f, rfl⟩ : ∃ f, fuel = f + 1 := ⟨fuel - 1, by omega⟩
    have h1 : count_fwd (buf ptr) bc ≠ 0 := by
      have := hne 0 (by omega)
      rw [count_fwd_add]; simpa [depth_fwd] using this
    have hrec := ih f (ptr + 1) ptr (count_fwd (buf ptr) bc) (by push_cast at hp; omega)
      (by push_cast at hp; omega)
      (fun m hm => by
        have := hne (m + 1) (by omega)
        rw [depth_fwd_shift] at this
        have e := count_fwd_add (buf ptr) bc
        omega)
      (by
        rw [depth_fwd_shift] at h0
        have e := count_fwd_add (buf ptr) bc
        omega)
      (by omega)
    simp only [scan_fwd, he, ↓reduceIte, h1, hrec, Prod.mk.injEq]
    push_cast; omega

/-- The backward scan stops with a `break` on the first byte at which the
counter is back to 0, as long as the bytes after it lie at offsets `≥ 0`. -/
theorem scan_bwd_break (buf : Int → Nat) :
    ∀ (n fuel : Nat) (ptr e bc : Int), 0 ≤ e → -1 ≤ ptr - n →
      (∀ m, m < n → bc + depth_bwd buf ptr (m + 1) ≠ 0) →
      bc + depth_bwd buf ptr (n + 1) = 0 → n < fuel →
      scan_bwd buf fuel ptr e bc = (ptr - n, ptr - n) := by
  intro n
  induction n with
  | zero =>
    intro fuel ptr e bc he _ _ h0 hf
    obtain ⟨f, rfl⟩ : ∃ f, fuel = f + 1 := ⟨fuel - 1, by omega⟩
    have h1 : count_bwd (buf ptr) bc = 0 := by
      rw [count_bwd_add]; simpa [depth_bwd] using h0
    simp [scan_bwd, he, h1]
  | succ n ih =>
    intro fuel ptr e bc he hp hne h0 hf
    obtain ⟨f, rfl⟩ : ∃ f, fuel = f + 1 := ⟨fuel - 1, by omega⟩
    have h1 : count_bwd (buf ptr) bc ≠ 0 := by
      have := hne 0 (by omega)
      rw [count_bwd_add]; simpa [depth_bwd] using this
    have hrec := ih f (ptr - 1) ptr (count_bwd (buf ptr) bc) (by push_cast at hp; omega)
      (by push_cast at hp; omega)
      (fun m hm => by
        have := hne (m + 1) (by omega)
        rw [depth_bwd_shift] at this
        have e := count_bwd_add (buf ptr) bc
        omega)
      (by
        rw [depth_bwd_shift] at h0
        have e := count_bwd_add (buf ptr) bc
        omega)
      (by omega)
    simp only [scan_bwd, he, ↓reduceIte, h1, hrec, Prod.mk.injEq]
    push_cast; omega

/-- What the forward scan of `tick_interpreter` returns when the bracket at
the instruction pointer has its match at `j`. -/
theorem scan_fwd_matched (s : bf_state) (j : Int) (h0 : 0 ≤ s.exec_ptr)
    (hj : j < (s.exec_size : Int)) (hm : matches_close s.exec_buf s.exec_ptr j) :
    scan_fwd s.exec_buf s.exec_size (fwd_fuel s.exec_size s.exec_ptr) s.exec_ptr 1 0
      = (j, j) := by
  obtain ⟨hij, -, hd, hne⟩ := hm
  have h := scan_fwd_break s.exec_buf s.exec_size (j - s.exec_ptr).toNat
    (fwd_fuel s.exec_size s.exec_ptr) s.exec_ptr 1 0 (by omega)
    (by rw [Int.toNat_of_nonneg (by omega)]; omega)
    (fun m hm => by simpa using hne m hm) (by simpa using hd)
    (by unfold fwd_fuel; omega)
  rw [h, Int.toNat_of_nonneg (by omega)]
  simp

/-- What the backward scan of `tick_interpreter` returns when the bracket at
the instruction pointer has its match at `i`. -/
theorem scan_bwd_matched (s : bf_state) (i : Int) (h0 : -1 ≤ i)
    (hm : matches_open s.exec_buf s.exec_ptr i) :
    scan_bwd s.exec_buf (bwd_fuel s.exec_ptr) s.exec_ptr 1 0 = (i, i) := by
  obtain ⟨hij, -, hd, hne⟩ := hm
  have h := scan_bwd_break s.exec_buf (s.exec_ptr - i).toNat
    (bwd_fuel s.exec_ptr) s.exec_ptr 1 0 (by omega)
    (by rw [Int.toNat_of_nonneg (by omega)]; omega)
    (fun m hm => by simpa using hne m hm) (by simpa using hd)
    (by unfold bwd_fuel; omega)
  rw [h, Int.toNat_of_nonneg (by omega)]
  simp

/-- A `[` on a zero cell whose match lies inside the program, at an offset
other than the tape capacity, jumps past the match. -/
theorem tick_open_jump (s : bf_state) (j : Int) (h0 : 0 ≤ s.exec_ptr)
    (hj : j < (s.exec_size : Int)) (hc : s.exec_buf s.exec_ptr = 91)
    (hz : cur_cell s = 0) (hm : matches_close s.exec_buf s.exec_ptr j)
    (hcap : j ≠ (s.mem_size : Int)) :
    tick_interpreter s = .ret true { s with exec_ptr := j + 1 } := by
  have hlt : ¬ (s.exec_size : Int) ≤ s.exec_ptr := by have := hm.1; omega
  rw [tick_open s hlt hc, scan_fwd_matched s j h0 hj hm]
  simp [hz, hcap, advance]

/-- A `[` on a zero cell whose match lies at the offset equal to the tape
capacity makes the process exit with the unmatched-bracket message. -/
theorem tick_open_at_capacity (s : bf_state) (j : Int) (h0 : 0 ≤ s.exec_ptr)
    (hj : j < (s.exec_size : Int)) (hc : s.exec_buf s.exec_ptr = 91)
    (hz : cur_cell s = 0) (hm : matches_close s.exec_buf s.exec_ptr j)
    (hcap : j = (s.mem_size : Int)) :
    tick_interpreter s = .exited 2 .unmatched_open { s with exec_ptr := j } := by
  have hlt : ¬ (s.exec_size : Int) ≤ s.exec_ptr := by have := hm.1; omega
  rw [tick_open s hlt hc, scan_fwd_matched s j h0 hj hm]
  simp [hz, hcap]

theorem tick_close_jump (s : bf_state) (i : Int) (h0 : 0 ≤ i)
    (hj : s.exec_ptr < (s.exec_size : Int)) (hc : s.exec_buf s.exec_ptr = 93)
    (hz : cur_cell s ≠ 0) (hm : matches_open s.exec_buf s.exec_ptr i) :
    tick_interpreter s = .ret true { s with exec_ptr := i + 1 } := by
  rw [tick_close s (by omega) hc, scan_bwd_matched s i (by omega) hm]
  simp [hz, advance, h0]

theorem scan_fwd_done (buf : Int → Nat) (size fuel : Nat) (ptr e bc : Int)
    (he : ¬ e < (size : Int)) : scan_fwd buf size fuel ptr e bc = (ptr, e) := by
  cases fuel with
  | zero => rfl
  | succ f => simp [scan_fwd, he]

theorem scan_bwd_done (buf : Int → Nat) (fuel : Nat) (ptr e bc : Int)
    (he : ¬ 0 ≤ e) : scan_bwd buf fuel ptr e bc = (ptr, e) := by
  cases fuel with
  | zero => rfl
  | succ f => simp [scan_bwd, he]

/-- The bound `fwd_fuel` is never reached: from it on, the forward scan does
not depend on the bound. -/
theorem scan_fwd_fuel_irrel (buf : Int → Nat) (size : Nat) :
    ∀ (f1 f2 : Nat) (ptr e bc : Int),
      (fwd_fuel size ptr ≤ f1 ∧ fwd_fuel size ptr ≤ f2) ∨ ¬ e < (size : Int) →
      scan_fwd buf size f1 ptr e bc = scan_fwd buf size f2 ptr e bc := by
  intro f1
  induction f1 with
  | zero =>
    intro f2 ptr e bc h
    rcases h with h | h
    · unfold fwd_fuel at h; omega
    · rw [scan_fwd_done _ _ _ _ _ _ h, scan_fwd_done _ _ _ _ _ _ h]
  | succ a ih =>
    intro f2 ptr e bc h
    by_cases he : e < (size : Int)
    · have h := h.resolve_right (not_not.mpr he)
      obtain ⟨b, rfl⟩ : ∃ b, f2 = b + 1 := ⟨f2 - 1, by unfold fwd_fuel at h; omega⟩
      simp only [scan_fwd, he, ↓reduceIte]
      split_ifs
      · rfl
      · apply ih
        unfold fwd_fuel at h ⊢
        omega
    · rw [scan_fwd_done _ _ _ _ _ _ he, scan_fwd_done _ _ _ _ _ _ he]

/-- The bound `bwd_fuel` is never reached: from it on, the backward scan
does not depend on the bound. -/
theorem scan_bwd_fuel_irrel (buf : Int → Nat) :
    ∀ (f1 f2 : Nat) (ptr e bc : Int),
      (bwd_fuel ptr ≤ f1 ∧ bwd_fuel ptr ≤ f2) ∨ ¬ 0 ≤ e →
      scan_bwd buf f1 ptr e bc = scan_bwd buf f2 ptr e bc := by
  intro f1
  induction f1 with
  | zero =>
    intro f2 ptr e bc h
    rcases h with h | h
    · unfold bwd_fuel at h; omega
    · rw [scan_bwd_done _ _ _ _ _ h, scan_bwd_done _ _ _ _ _ h]
  | succ a ih =>
    intro f2 ptr e bc h
    by_cases he : 0 ≤ e
    · have h := h.resolve_right (not_not.mpr he)
      obtain ⟨b, rfl⟩ : ∃ b, f2 = b + 1 := ⟨f2 - 1, by unfold bwd_fuel at h; omega⟩
      simp only [scan_bwd, he, ↓reduceIte]
      split_ifs
      · rfl
      · apply ih
        unfold bwd_fuel at h ⊢
        omega
    · rw [scan_bwd_done _ _ _ _ _ he, scan_bwd_done _ _ _ _ _ he]

/-! ## Frame of one step -/

theorem tick_shape (s : bf_state) (h : ¬ (s.exec_size : Int) ≤ s.exec_ptr) :
    (∃ s1, tick_interpreter s = .ret true s1 ∧ step_frame s s1) ∨
    (∃ m s1, tick_interpreter s = .exited 2 m s1 ∧ step_frame s s1) := by
  have hrefl : step_frame s s := ⟨rfl, rfl, rfl, Or.inl rfl⟩
  by_cases h43 : s.exec_buf s.exec_ptr = 43
  · exact Or.inl ⟨_, tick_plus s h h43, rfl, rfl, rfl, Or.inl rfl⟩
  by_cases h45 : s.exec_buf s.exec_ptr = 45
  · exact Or.inl ⟨_, tick_minus s h h45, rfl, rfl, rfl, Or.inl rfl⟩
  by_cases h62 : s.exec_buf s.exec_ptr = 62
  · rw [tick_right s h h62]
    split_ifs with hm
    · exact Or.inr ⟨_, _, rfl, hrefl⟩
    · exact Or.inl ⟨_, rfl, rfl, rfl, rfl, Or.inr (Or.inl ⟨rfl, by omega⟩)⟩
  by_cases h60 : s.exec_buf s.exec_ptr = 60
  · rw [tick_left s h h60]
    split_ifs with hm
    · exact Or.inr ⟨_, _, rfl, hrefl⟩
    · exact Or.inl ⟨_, rfl, rfl, rfl, rfl, Or.inr (Or.inr ⟨rfl, hm⟩)⟩
  by_cases h46 : s.exec_buf s.exec_ptr = 46
  · exact Or.inl ⟨_, tick_dot s h h46, rfl, rfl, rfl, Or.inl rfl⟩
  by_cases h44 : s.exec_buf s.exec_ptr = 44
  · exact Or.inl ⟨_, tick_comma s h h44, rfl, rfl, rfl, Or.inl rfl⟩
  by_cases h91 : s.exec_buf s.exec_ptr = 91
  · rw [tick_open s h h91]
    split_ifs
    · exact Or.inl ⟨_, rfl, hrefl⟩
    · exact Or.inr ⟨_, _, rfl, rfl, rfl, rfl, Or.inl rfl⟩
    · exact Or.inl ⟨_, rfl, rfl, rfl, rfl, Or.inl rfl⟩
  by_cases h93 : s.exec_buf s.exec_ptr = 93
  · rw [tick_close s h h93]
    split_ifs
    · exact Or.inl ⟨_, rfl, hrefl⟩
    · exact Or.inr ⟨_, _, rfl, rfl, rfl, rfl, Or.inl rfl⟩
    · exact Or.inl ⟨_, rfl, rfl, rfl, rfl, Or.inl rfl⟩
  · refine Or.inl ⟨_, tick_other s h ?_, hrefl⟩
    unfold is_command
    tauto

theorem tick_ret_false (s s1 : bf_state) (h : tick_interpreter s = .ret false s1) :
    (s.exec_size : Int) ≤ s.exec_ptr ∧ s1 = s := by
  by_cases hend : (s.exec_size : Int) ≤ s.exec_ptr
  · rw [tick_at_end s hend] at h
    simp only [tick_result.ret.injEq, true_and] at h
    exact ⟨hend, h.symm⟩
  · rcases tick_shape s hend with ⟨s2, h2, -⟩ | ⟨m, s2, h2, -⟩ <;>
      rw [h2] at h <;> simp at h

theorem tick_ret_frame (s s1 : bf_state) (b : Bool) (h : tick_interpreter s = .ret b s1) :
    step_frame s s1 := by
  by_cases hend : (s.exec_size : Int) ≤ s.exec_ptr
  · rw [tick_at_end s hend] at h
    simp only [tick_result.ret.injEq] at h
    rw [← h.2]
    exact ⟨rfl, rfl, rfl, Or.inl rfl⟩
  · rcases tick_shape s hend with ⟨s2, h2, hf⟩ | ⟨m, s2, h2, -⟩
    · rw [h2] at h
      simp only [tick_result.ret.injEq] at h
      rw [← h.2]; exact hf
    · rw [h2] at h; simp at h

/-! ## The end check, pointer moves and the memory-pointer invariant -/

/-- C10: `tick_interpreter` returns stop (false) exactly when the instruction
pointer is at or past the end of the program on entry, and a call that
returns stop hands back the state it was given: tape, both cursors, output
and input untouched. In particular the empty program stops on the first
call, from the initial state, with no side effect. -/
theorem tick_stop_iff_at_end (s : bf_state) :
    ((∃ s1, tick_interpreter s = .ret false s1) ↔ (s.exec_size : Int) ≤ s.exec_ptr) ∧
    (∀ s1, tick_interpreter s = .ret false s1 → s1 = s) ∧
    (∀ heap input, tick_interpreter (init_interpreter [] heap input)
      = .ret false (init_interpreter [] heap input)) :=
  ⟨⟨fun ⟨s1, h⟩ => (tick_ret_false s s1 h).1, fun h => ⟨s, tick_at_end s h⟩⟩,
   fun s1 h => (tick_ret_false s s1 h).2,
   fun heap input => tick_at_end _ (by simp [init_interpreter])⟩

/-- C10 at the initial state of the one-byte program `+` moved to its end:
the call returns stop and the state it returns is the one it was given. -/
theorem tick_stop_iff_at_end_witness :
    tick_interpreter { init_interpreter [43] (fun _ => 0) [] with exec_ptr := 1 }
      = .ret false { init_interpreter [43] (fun _ => 0) [] with exec_ptr := 1 } := by
  obtain ⟨s1, h⟩ := (tick_stop_iff_at_end
    { init_interpreter [43] (fun _ => 0) [] with exec_ptr := 1 }).1.mpr (by decide)
  have e := (tick_stop_iff_at_end
    { init_interpreter [43] (fun _ => 0) [] with exec_ptr := 1 }).2.1 s1 h
  rw [h, e]

/-- C7: with the memory pointer inside the tape, `>` fails with the
out-of-bounds (right) message exactly when the pointer is on the last cell,
and `<` fails with the out-of-bounds (left) message exactly when it is on
cell 0; otherwise the pointer moves by one cell in the named direction, the
tape is unchanged and the instruction pointer advances by one. -/
theorem tick_move_fails_iff_at_edge (s : bf_state)
    (hip : s.exec_ptr < (s.exec_size : Int))
    (_hlo : 0 ≤ s.mem_ptr) (hhi : s.mem_ptr ≤ (s.mem_size : Int) - 1) :
    (s.exec_buf s.exec_ptr = 62 →
      ((∃ s1, tick_interpreter s = .exited 2 .oob_right s1) ↔
          s.mem_ptr = (s.mem_size : Int) - 1) ∧
      (s.mem_ptr ≠ (s.mem_size : Int) - 1 →
        tick_interpreter s = .ret true
          { s with mem_ptr := s.mem_ptr + 1, exec_ptr := s.exec_ptr + 1 })) ∧
    (s.exec_buf s.exec_ptr = 60 →
      ((∃ s1, tick_interpreter s = .exited 2 .oob_left s1) ↔ s.mem_ptr = 0) ∧
      (s.mem_ptr ≠ 0 →
        tick_interpreter s = .ret true
          { s with mem_ptr := s.mem_ptr - 1, exec_ptr := s.exec_ptr + 1 })) := by
  have hend : ¬ (s.exec_size : Int) ≤ s.exec_ptr := by omega
  refine ⟨fun hc => ?_, fun hc => ?_⟩
  · rw [tick_right s hend hc]
    by_cases hm : (s.mem_size : Int) ≤ s.mem_ptr + 1
    · have : s.mem_ptr = (s.mem_size : Int) - 1 := by omega
      simp [hm, this]
    · have : s.mem_ptr ≠ (s.mem_size : Int) - 1 := by omega
      simp [hm, this, advance]
  · rw [tick_left s hend hc]
    by_cases hm : s.mem_ptr = 0
    · simp [hm]
    · simp [hm, advance]

/-- C7 on the last cell of the tape and on cell 0. -/
theorem tick_move_fails_iff_at_edge_witness :
    (∃ s1, tick_interpreter
      { init_interpreter [62, 60] (fun _ => 0) [] with mem_ptr := 29999 }
        = .exited 2 .oob_right s1) ∧
    tick_interpreter { init_interpreter [62, 60] (fun _ => 0) [] with mem_ptr := 29998 }
      = .ret true { init_interpreter [62, 60] (fun _ => 0) [] with
          mem_ptr := 29998 + 1, exec_ptr := 0 + 1 } :=
  ⟨((tick_move_fails_iff_at_edge
      { init_interpreter [62, 60] (fun _ => 0) [] with mem_ptr := 29999 }
      (by decide) (by decide) (by decide)).1 (by decide)).1.mpr (by decide),
   ((tick_move_fails_iff_at_edge
      { init_interpreter [62, 60] (fun _ => 0) [] with mem_ptr := 29998 }
      (by decide) (by decide) (by decide)).1 (by decide)).2 (by decide)⟩

theorem reachable_frame (s0 s : bf_state) (h : reachable s0 s) :
    s.exec_buf = s0.exec_buf ∧ s.exec_size = s0.exec_size ∧ s.mem_size = s0.mem_size ∧
      (0 ≤ s0.mem_ptr → 0 ≤ s.mem_ptr) ∧
      (s0.mem_ptr ≤ (s0.mem_size : Int) - 1 → s.mem_ptr ≤ (s.mem_size : Int) - 1) := by
  induction h with
  | start => exact ⟨rfl, rfl, rfl, id, id⟩
  | tick s s1 b _ ht ih =>
    obtain ⟨h1, h2, h3, h4⟩ := tick_ret_frame s s1 b ht
    obtain ⟨i1, i2, i3, i4, i5⟩ := ih
    refine ⟨h1.trans i1, h2.trans i2, h3.trans i3, fun h => ?_, fun h => ?_⟩
    · have := i4 h; omega
    · have := i5 h; omega

/-- C8: every state reachable from the initial state by calls of
`tick_interpreter` that return has its memory pointer inside the tape,
`0 <= mem_ptr - mem_buf <= mem_size - 1`, and the tape capacity is still
`MEMORY_SIZE` = 30000. -/
theorem reachable_mem_ptr_in_tape (file : List Nat) (heap : Int → Nat) (input : List Nat)
    (s : bf_state) (h : reachable (init_interpreter file heap input) s) :
    0 ≤ s.mem_ptr ∧ s.mem_ptr ≤ (s.mem_size : Int) - 1 ∧ s.mem_size = 30000 := by
  obtain ⟨-, -, h3, h4, h5⟩ := reachable_frame _ s h
  have e : (init_interpreter file heap input).mem_size = 30000 := rfl
  have p : (init_interpreter file heap input).mem_ptr = 0 := rfl
  rw [e, p] at h5
  rw [p] at h4
  exact ⟨h4 le_rfl, h5 (by omega), h3.trans e⟩

/-- C8 after the two steps of the program `><`: the pointer went to cell 1
and came back to cell 0. -/
theorem reachable_mem_ptr_in_tape_witness :
    reachable (init_interpreter [62, 60] (fun _ => 0) [])
        { init_interpreter [62, 60] (fun _ => 0) [] with exec_ptr := 2 } ∧
      (0 : Int) ≤ 0 ∧ (0 : Int) ≤ ((30000 : Nat) : Int) - 1 ∧ 30000 = 30000 :=
  have hr : reachable (init_interpreter [62, 60] (fun _ => 0) [])
      { init_interpreter [62, 60] (fun _ => 0) [] with exec_ptr := 2 } :=
    reachable.tick { init_interpreter [62, 60] (fun _ => 0) [] with
        exec_ptr := 1, mem_ptr := 1 } _ true
      (reachable.tick _ _ true reachable.start (by
        rw [tick_right _ (by decide) (by decide)]; rfl)) (by
        rw [tick_left _ (by decide) (by decide)]; rfl)
  ⟨hr, reachable_mem_ptr_in_tape [62, 60] (fun _ => 0) []
    { init_interpreter [62, 60] (fun _ => 0) [] with exec_ptr := 2 } hr⟩

/-! ## Unmatched `]`, and the symmetry of bracket matching -/

/-- With no byte of the program bringing the counter back to 0, the backward
scan runs off the start of the buffer and stops with `exec_pos = -1`,
whatever the byte in front of the buffer is. -/
theorem scan_bwd_unmatched (buf : Int → Nat) :
    ∀ (k fuel : Nat) (ptr e bc : Int), ptr = (k : Int) → 0 ≤ e →
      (∀ m, m ≤ k → bc + depth_bwd buf ptr (m + 1) ≠ 0) → k + 3 ≤ fuel →
      (scan_bwd buf fuel ptr e bc).2 = -1 := by
  intro k
  induction k with
  | zero =>
    intro fuel ptr e bc hp he hne hf
    obtain ⟨f, rfl⟩ : ∃ f, fuel = f + 2 := ⟨fuel - 2, by omega⟩
    have h1 : count_bwd (buf ptr) bc ≠ 0 := by
      have := hne 0 (by omega)
      rw [count_bwd_add]; simpa [depth_bwd] using this
    have hp0 : (0 : Int) ≤ ptr := by omega
    rw [scan_bwd]
    simp only [he, ↓reduceIte, h1]
    rw [scan_bwd]
    simp only [hp0, ↓reduceIte]
    split_ifs
    · simp only; omega
    · rw [scan_bwd_done _ _ _ _ _ (by omega)]
      simp only; omega
  | succ k ih =>
    intro fuel ptr e bc hp he hne hf
    obtain ⟨f, rfl⟩ : ∃ f, fuel = f + 1 := ⟨fuel - 1, by omega⟩
    have h1 : count_bwd (buf ptr) bc ≠ 0 := by
      have := hne 0 (by omega)
      rw [count_bwd_add]; simpa [depth_bwd] using this
    rw [scan_bwd]
    simp only [he, ↓reduceIte, h1]
    apply ih f (ptr - 1) ptr (count_bwd (buf ptr) bc) (by push_cast at hp; omega)
      (by push_cast at hp; omega) _ (by omega)
    intro m hm
    have := hne (m + 1) (by omega)
    rw [depth_bwd_shift] at this
    have e := count_bwd_add (buf ptr) bc
    omega

/-- A `]` on a nonzero cell that no `[` of the program matches makes the
process exit with the unmatched-bracket message. -/
theorem tick_close_unmatched (s : bf_state) (h0 : 0 ≤ s.exec_ptr)
    (hlt : s.exec_ptr < (s.exec_size : Int)) (hc : s.exec_buf s.exec_ptr = 93)
    (hz : cur_cell s ≠ 0)
    (hun : ∀ n, n ≤ s.exec_ptr.toNat → depth_bwd s.exec_buf s.exec_ptr (n + 1) ≠ 0) :
    ∃ p, tick_interpreter s = .exited 2 .unmatched_close { s with exec_ptr := p } := by
  have h := scan_bwd_unmatched s.exec_buf s.exec_ptr.toNat (bwd_fuel s.exec_ptr)
    s.exec_ptr 1 0 (by omega) (by omega) (fun m hm => by simpa using hun m hm)
    (by unfold bwd_fuel; omega)
  rw [tick_close s (by omega) hc]
  simp only [hz, ↓reduceIte, h]
  exact ⟨_, if_pos (by decide)⟩

theorem count_bwd_neg (c : Nat) : count_bwd c 0 = - count_fwd c 0 := by
  unfold count_bwd count_fwd; split_ifs <;> omega

theorem count_fwd_ge (c : Nat) (bc : Int) : bc - 1 ≤ count_fwd c bc := by
  unfold count_fwd; split_ifs <;> omega

theorem count_bwd_ge (c : Nat) (bc : Int) : bc - 1 ≤ count_bwd c bc := by
  unfold count_bwd; split_ifs <;> omega

theorem depth_fwd_add (buf : Int → Nat) (i : Int) (m n : Nat) :
    depth_fwd buf i (m + n) = depth_fwd buf i m + depth_fwd buf (i + m) n := by
  induction n with
  | zero => simp [depth_fwd]
  | succ n ih =>
    rw [← Nat.add_assoc, depth_fwd, depth_fwd, ih, count_fwd_add,
      count_fwd_add _ (depth_fwd _ _ _)]
    have : i + ((m + n : Nat) : Int) = i + (m : Int) + (n : Int) := by push_cast; ring
    rw [this]; ring

/-- The backward depth over a stretch of bytes is the negated forward depth
over the same stretch. -/
theorem depth_bwd_eq_neg (buf : Int → Nat) (j : Int) (n : Nat) :
    depth_bwd buf j n = - depth_fwd buf (j - n + 1) n := by
  induction n with
  | zero => simp [depth_bwd, depth_fwd]
  | succ n ih =>
    rw [depth_bwd, count_bwd_add, ih, depth_fwd_shift, count_bwd_neg]
    have e1 : j - ((n + 1 : Nat) : Int) + 1 = j - (n : Int) := by push_cast; ring
    rw [e1]; ring

theorem depth_fwd_pos (buf : Int → Nat) (i : Int) (L : Nat) (hb : buf i = 91)
    (hne : ∀ n, n < L → depth_fwd buf i (n + 1) ≠ 0) :
    ∀ n, n < L → 0 < depth_fwd buf i (n + 1) := by
  intro n
  induction n with
  | zero => intro _; simp [depth_fwd, count_fwd, hb]
  | succ n ih =>
    intro hn
    have h1 := ih (by omega)
    have h2 := hne (n + 1) hn
    have h3 := count_fwd_ge (buf (i + ((n + 1 : Nat) : Int))) (depth_fwd buf i (n + 1))
    rw [depth_fwd] at h2 ⊢
    omega

theorem depth_bwd_pos (buf : Int → Nat) (j : Int) (L : Nat) (hb : buf j = 93)
    (hne : ∀ n, n < L → depth_bwd buf j (n + 1) ≠ 0) :
    ∀ n, n < L → 0 < depth_bwd buf j (n + 1) := by
  intro n
  induction n with
  | zero => intro _; simp [depth_bwd, count_bwd, hb]
  | succ n ih =>
    intro hn
    have h1 := ih (by omega)
    have h2 := hne (n + 1) hn
    have h3 := count_bwd_ge (buf (j - ((n + 1 : Nat) : Int))) (depth_bwd buf j (n + 1))
    rw [depth_bwd] at h2 ⊢
    omega

/-- Bracket matching is symmetric, forward to backward: the `]` that the
forward scan from a `[` finds has that `[` as its match in the backward scan. -/
theorem matches_close_symm (buf : Int → Nat) (i j : Int) (hb : buf i = 91)
    (h : matches_close buf i j) : matches_open buf j i := by
  obtain ⟨hij, -, hd, hne⟩ := h
  obtain ⟨L, rfl⟩ : ∃ L : Nat, j = i + L := ⟨(j - i).toNat, by omega⟩
  have hL : (i + (L : Int) - i).toNat = L := by simp
  rw [hL] at hd hne
  have hpos := depth_fwd_pos buf i L hb hne
  refine ⟨hij, hb, ?_, ?_⟩
  · rw [hL, depth_bwd_eq_neg]
    have : i + (L : Int) - ((L + 1 : Nat) : Int) + 1 = i := by push_cast; ring
    rw [this, hd]; rfl
  · rw [hL]
    intro n hn
    rw [depth_bwd_eq_neg]
    have e : i + (L : Int) - ((n + 1 : Nat) : Int) + 1 = i + ((L - n : Nat) : Int) := by
      push_cast [Nat.cast_sub (le_of_lt hn)]; ring
    have hadd := depth_fwd_add buf i (L - n) (n + 1)
    have hsum : L - n + (n + 1) = L + 1 := by omega
    rw [hsum, hd] at hadd
    have hp := hpos (L - n - 1) (by omega)
    have hs : L - n - 1 + 1 = L - n := by omega
    rw [hs] at hp
    rw [e]
    omega

/-- Bracket matching is symmetric, backward to forward. -/
theorem matches_open_symm (buf : Int → Nat) (i j : Int) (hb : buf j = 93)
    (h : matches_open buf j i) : matches_close buf i j := by
  obtain ⟨hij, -, hd, hne⟩ := h
  obtain ⟨L, rfl⟩ : ∃ L : Nat, j = i + L := ⟨(j - i).toNat, by omega⟩
  have hL : (i + (L : Int) - i).toNat = L := by simp
  rw [hL] at hd hne
  have hpos := depth_bwd_pos buf (i + L) L hb hne
  have e0 : i + (L : Int) - ((L + 1 : Nat) : Int) + 1 = i := by push_cast; ring
  have hd0 : depth_fwd buf i (L + 1) = 0 := by
    have := depth_bwd_eq_neg buf (i + L) (L + 1)
    rw [e0, hd] at this
    omega
  refine ⟨hij, hb, ?_, ?_⟩
  · rw [hL]; exact hd0
  · rw [hL]
    intro n hn
    have hadd := depth_fwd_add buf i (n + 1) (L - n)
    have hsum : n + 1 + (L - n) = L + 1 := by omega
    rw [hsum, hd0] at hadd
    have hb2 := depth_bwd_eq_neg buf (i + L) (L - n)
    have e : i + (L : Int) - ((L - n : Nat) : Int) + 1 = i + ((n + 1 : Nat) : Int) := by
      push_cast [Nat.cast_sub (le_of_lt hn)]; ring
    rw [e] at hb2
    have hp := hpos (L - n - 1) (by omega)
    have hs : L - n - 1 + 1 = L - n := by omega
    rw [hs] at hp
    omega

/-! ## A loop whose `]` sits at offset 30000 -/

theorem depth_fwd_plain (buf : Int → Nat) (i : Int) (n : Nat)
    (h : ∀ k : Nat, k < n → buf (i + k) ≠ 91 ∧ buf (i + k) ≠ 93) :
    depth_fwd buf i n = 0 := by
  induction n with
  | zero => rfl
  | succ n ih =>
    rw [depth_fwd, ih (fun k hk => h k (by omega))]
    have := h n (by omega)
    simp [count_fwd, this.1, this.2]

/-- A `[` and a later `]` with no bracket between them match. -/
theorem matches_close_plain (buf : Int → Nat) (i j : Int) (hij : i < j)
    (hi : buf i = 91) (hj : buf j = 93)
    (h : ∀ p, i < p → p < j → buf p ≠ 91 ∧ buf p ≠ 93) : matches_close buf i j := by
  obtain ⟨L, rfl⟩ : ∃ L : Nat, j = i + 1 + L := ⟨(j - i - 1).toNat, by omega⟩
  have hL : (i + 1 + (L : Int) - i).toNat = L + 1 := by omega
  have hplain : ∀ n, n ≤ L → depth_fwd buf (i + 1) n = 0 := fun n hn =>
    depth_fwd_plain buf (i + 1) n (fun k hk => h _ (by omega) (by omega))
  refine ⟨hij, hj, ?_, ?_⟩
  · rw [hL, depth_fwd, depth_fwd_shift, hplain L le_rfl]
    have : i + ((L + 1 : Nat) : Int) = i + 1 + L := by push_cast; ring
    rw [this, hj]
    simp [count_fwd, hi]
  · rw [hL]
    intro n hn
    rw [depth_fwd_shift, hplain n (by omega)]
    simp [count_fwd, hi]

theorem blank_loop_length (n : Nat) :
    (91 :: (List.replicate n 32 ++ [93])).length = n + 2 := by
  simp

theorem blank_loop_getD (n k : Nat) (hk : k ≤ n + 1) :
    (91 :: (List.replicate n 32 ++ [93])).getD k 0 =
      if k = 0 then 91 else if k = n + 1 then 93 else 32 := by
  cases k with
  | zero => rfl
  | succ k =>
    simp only [List.getD_cons_succ, Nat.succ_ne_zero, ↓reduceIte, Nat.add_right_cancel_iff]
    by_cases h : k = n
    · subst h
      simp [List.getD_eq_getElem?_getD, List.getElem?_append_right]
    · have hlt : k < n := by omega
      simp [List.getD_eq_getElem?_getD, List.getElem?_append_left, hlt, h,
        List.getElem?_replicate]

theorem long_loop_length : long_loop.length = 30001 :=
  blank_loop_length 29999

theorem long_loop_getD (k : Nat) (hk : k ≤ 30000) :
    long_loop.getD k 0 = if k = 0 then 91 else if k = 30000 then 93 else 32 :=
  blank_loop_getD 29999 k hk

theorem load_long_loop (heap : Int → Nat) (p : Int) (h0 : 0 ≤ p) (h1 : p ≤ 30000) :
    load_exec long_loop heap p = if p = 0 then 91 else if p = 30000 then 93 else 32 := by
  unfold load_exec
  rw [long_loop_length, if_pos ⟨h0, by omega⟩, long_loop_getD _ (by omega)]
  have e1 : (p.toNat = 0) ↔ p = 0 := by omega
  have e2 : (p.toNat = 30000) ↔ p = 30000 := by omega
  simp only [e1, e2]

theorem long_loop_matches (heap : Int → Nat) :
    matches_close (load_exec long_loop heap) 0 30000 := by
  apply matches_close_plain _ _ _ (by decide)
  · rw [load_long_loop heap 0 (by decide) (by decide)]; rfl
  · rw [load_long_loop heap 30000 (by decide) (by decide)]; rfl
  · intro p hp0 hp1
    rw [load_long_loop heap p (by omega) (by omega)]
    have a : p ≠ 0 := by omega
    have b : p ≠ 30000 := by omega
    simp [a, b]

/-! ## Jumps, and where they go wrong -/

theorem long_loop_open (heap : Int → Nat) (input : List Nat) :
    (init_interpreter long_loop heap input).exec_buf
      (init_interpreter long_loop heap input).exec_ptr = 91 := by
  simp only [init_interpreter]
  rw [load_long_loop heap 0 (by decide) (by decide)]; rfl

theorem long_loop_close_inside (heap : Int → Nat) (input : List Nat) :
    (30000 : Int) < ((init_interpreter long_loop heap input).exec_size : Int) := by
  simp only [init_interpreter]
  rw [long_loop_length]; decide

/-- C2, as the code behaves: a `[` at offset `i` on a zero cell whose
depth-matched `]` is at offset `j` of the program leaves the instruction
pointer at `j + 1` with the tape and the memory pointer unchanged, except
when `j` equals the tape capacity `mem_size`: then the process exits with
status 2 and the message `unmatched '['`, which is where the claim fails. -/
theorem tick_open_zero_cell (s : bf_state) (j : Int) (h0 : 0 ≤ s.exec_ptr)
    (hj : j < (s.exec_size : Int)) (hc : s.exec_buf s.exec_ptr = 91)
    (hz : cur_cell s = 0) (hm : matches_close s.exec_buf s.exec_ptr j) :
    tick_interpreter s =
      if j = (s.mem_size : Int) then .exited 2 .unmatched_open { s with exec_ptr := j }
      else .ret true { s with exec_ptr := j + 1 } := by
  split_ifs with hcap
  · exact tick_open_at_capacity s j h0 hj hc hz hm hcap
  · exact tick_open_jump s j h0 hj hc hz hm hcap

/-- C2 at the initial state of `long_loop`: the `[` at offset 0 has its match
at offset 30000 and the first step exits with `unmatched '['`. -/
theorem tick_open_zero_cell_witness :
    tick_interpreter (init_interpreter long_loop (fun _ => 0) []) =
      .exited 2 .unmatched_open
        { init_interpreter long_loop (fun _ => 0) [] with exec_ptr := 30000 } :=
  (tick_open_zero_cell (init_interpreter long_loop (fun _ => 0) []) 30000 (le_refl 0)
    (long_loop_close_inside _ _) (long_loop_open _ _) rfl (long_loop_matches _)).trans
    (if_pos rfl)

/-- C3: a `]` at offset `j` on a nonzero cell whose depth-matched `[` is at
offset `i` of the program makes `tick_interpreter` return continue with the
instruction pointer at `i + 1` and the tape, the memory pointer and both
streams unchanged. The offset `j` is below `2^31`: the source keeps the
position of the backward scan in an `int`, and only there is that `int` the
offset itself. -/
theorem tick_close_nonzero_cell (s : bf_state) (i : Int) (h0 : 0 ≤ i)
    (hj : s.exec_ptr < (s.exec_size : Int)) (_hj31 : s.exec_ptr < 2147483648)
    (hc : s.exec_buf s.exec_ptr = 93)
    (hz : cur_cell s ≠ 0) (hm : matches_open s.exec_buf s.exec_ptr i) :
    tick_interpreter s = .ret true { s with exec_ptr := i + 1 } :=
  tick_close_jump s i h0 hj hc hz hm

/-- C3 on the program `+[]`, in the state its first two steps leave behind
on a fresh tape (cell 0 holds 1, the instruction pointer is on the `]` at
offset 2): the step goes back to offset 2, just after the `[` at offset 1. -/
theorem tick_close_nonzero_cell_witness :
    tick_interpreter { init_interpreter [43, 91, 93] (fun _ => 0) [] with
        exec_ptr := 2, mem_buf := fun p => if p = 0 then 1 else 0 } =
      .ret true { init_interpreter [43, 91, 93] (fun _ => 0) [] with
        exec_ptr := 1 + 1, mem_buf := fun p => if p = 0 then 1 else 0 } :=
  tick_close_nonzero_cell { init_interpreter [43, 91, 93] (fun _ => 0) [] with
      exec_ptr := 2, mem_buf := fun p => if p = 0 then 1 else 0 } 1 (by decide) (by decide)
    (by decide) (by decide) (by decide) (by decide)

/-- C4, as the code behaves: for a well-formed loop with `[` at offset `i`
and depth-matched `]` at offset `j`, the backward scan from `j` has `i` as
its match and a step at `j` on a nonzero cell lands on `i` (instruction
pointer `i + 1`); the forward scan from `i` lands on `j`, and the step at `i`
on a zero cell leaves the instruction pointer at `j + 1`, except when `j`
equals the tape capacity: then it exits with `unmatched '['` instead of
succeeding, which is where the claim fails. -/
theorem bracket_scans_round_trip (s t : bf_state) (i j : Int)
    (hbuf : t.exec_buf = s.exec_buf) (hsize : t.exec_size = s.exec_size)
    (hi : s.exec_ptr = i) (htj : t.exec_ptr = j) (h0 : 0 ≤ i)
    (hj : j < (s.exec_size : Int)) (hc : s.exec_buf i = 91)
    (hzs : cur_cell s = 0) (hzt : cur_cell t ≠ 0)
    (hm : matches_close s.exec_buf i j) :
    matches_open s.exec_buf j i ∧
    tick_interpreter t = .ret true { t with exec_ptr := i + 1 } ∧
    scan_fwd s.exec_buf s.exec_size (fwd_fuel s.exec_size i) i 1 0 = (j, j) ∧
    tick_interpreter s =
      if j = (s.mem_size : Int) then .exited 2 .unmatched_open { s with exec_ptr := j }
      else .ret true { s with exec_ptr := j + 1 } := by
  subst hi htj
  have hsym := matches_close_symm s.exec_buf _ _ hc hm
  refine ⟨hsym, ?_, scan_fwd_matched s _ h0 hj hm, ?_⟩
  · exact tick_close_jump t _ h0 (by rw [hsize]; exact hj) (by rw [hbuf]; exact hm.2.1) hzt
      (by rw [hbuf]; exact hsym)
  · split_ifs with hcap
    · exact tick_open_at_capacity s _ h0 hj hc hzs hm hcap
    · exact tick_open_jump s _ h0 hj hc hzs hm hcap

/-- C4 on `long_loop`: the `]` at offset 30000 and the `[` at offset 0 match
each other in both directions and the step at the `]` lands on the `[`, but
the step at the `[` exits with `unmatched '['`. -/
theorem bracket_scans_round_trip_witness :
    matches_open (init_interpreter long_loop (fun _ => 0) []).exec_buf 30000 0 ∧
    tick_interpreter { init_interpreter long_loop (fun _ => 0) [] with
        exec_ptr := 30000, mem_buf := fun _ => 1 } =
      .ret true { init_interpreter long_loop (fun _ => 0) [] with
        exec_ptr := 0 + 1, mem_buf := fun _ => 1 } ∧
    scan_fwd (init_interpreter long_loop (fun _ => 0) []).exec_buf
        (init_interpreter long_loop (fun _ => 0) []).exec_size
        (fwd_fuel (init_interpreter long_loop (fun _ => 0) []).exec_size 0) 0 1 0
      = (30000, 30000) ∧
    tick_interpreter (init_interpreter long_loop (fun _ => 0) []) =
      .exited 2 .unmatched_open
        { init_interpreter long_loop (fun _ => 0) [] with exec_ptr := 30000 } :=
  have h := bracket_scans_round_trip (init_interpreter long_loop (fun _ => 0) [])
    { init_interpreter long_loop (fun _ => 0) [] with
        exec_ptr := 30000, mem_buf := fun _ => 1 } 0 30000 rfl rfl rfl rfl (le_refl 0)
    (long_loop_close_inside _ _) (long_loop_open _ _) rfl (by decide)
    (long_loop_matches _)
  ⟨h.1, h.2.1, h.2.2.1, h.2.2.2.trans (if_pos rfl)⟩

/-- C5 fails on the code: on the one-byte program `[` and a fresh tape the
current instruction is `[`, the current cell is zero and no later `]` brings
the depth back to zero, yet the step does not fail: it returns continue with
the instruction pointer at 1, and the next call returns stop, so the run
ends normally. This holds whatever lies around the buffer and on the input. -/
theorem unmatched_open_runs_to_normal_end (heap : Int → Nat) (input : List Nat) :
    (init_interpreter [91] heap input).exec_buf (init_interpreter [91] heap input).exec_ptr = 91 ∧
    cur_cell (init_interpreter [91] heap input) = 0 ∧
    (∀ n : Nat, (n : Int) < ((init_interpreter [91] heap input).exec_size : Int) →
      depth_fwd (init_interpreter [91] heap input).exec_buf 0 (n + 1) ≠ 0) ∧
    tick_interpreter (init_interpreter [91] heap input) =
      .ret true { init_interpreter [91] heap input with exec_ptr := 1 } ∧
    run 2 (init_interpreter [91] heap input) =
      some (.ret false { init_interpreter [91] heap input with exec_ptr := 1 }) := by
  have hc : (init_interpreter [91] heap input).exec_buf
      (init_interpreter [91] heap input).exec_ptr = 91 := by
    simp [init_interpreter, load_exec]
  have ht : tick_interpreter (init_interpreter [91] heap input) =
      .ret true { init_interpreter [91] heap input with exec_ptr := 1 } := by
    rw [tick_open _ (by simp [init_interpreter]) hc]
    simp [init_interpreter, cur_cell, fwd_fuel, scan_fwd, MEMORY_SIZE, advance]
  refine ⟨hc, rfl, ?_, ht, ?_⟩
  · intro n hn
    have : n = 0 := by simp [init_interpreter] at hn; omega
    subst this
    simp [depth_fwd, count_fwd, init_interpreter, load_exec]
  · rw [run, ht]
    simp only [run]
    rw [tick_at_end _ (by simp [init_interpreter])]

/-- C6: a `]` inside the program on a nonzero cell, for which no byte of the
program brings the backward depth to zero, makes the process exit with
status 2 and the message `unmatched ']'`; nothing but the instruction pointer
differs in the state at the exit. -/
theorem tick_close_unmatched_fails (s : bf_state) (h0 : 0 ≤ s.exec_ptr)
    (hlt : s.exec_ptr < (s.exec_size : Int)) (hc : s.exec_buf s.exec_ptr = 93)
    (hz : cur_cell s ≠ 0)
    (hun : ∀ n, n ≤ s.exec_ptr.toNat → depth_bwd s.exec_buf s.exec_ptr (n + 1) ≠ 0) :
    ∃ p, tick_interpreter s = .exited 2 .unmatched_close { s with exec_ptr := p } :=
  tick_close_unmatched s h0 hlt hc hz hun

/-- C6 on the program `+]`, in the state the `+` leaves behind on a fresh
tape. -/
theorem tick_close_unmatched_fails_witness :
    tick_interpreter (init_interpreter [43, 93] (fun _ => 0) []) =
      .ret true { init_interpreter [43, 93] (fun _ => 0) [] with
        exec_ptr := 1, mem_buf := fun p => if p = 0 then 1 else 0 } ∧
    ∃ p, tick_interpreter { init_interpreter [43, 93] (fun _ => 0) [] with
        exec_ptr := 1, mem_buf := fun p => if p = 0 then 1 else 0 } =
      .exited 2 .unmatched_close { init_interpreter [43, 93] (fun _ => 0) [] with
        exec_ptr := p, mem_buf := fun p => if p = 0 then 1 else 0 } :=
  ⟨by rw [tick_plus _ (by decide) (by decide)]; rfl,
   tick_close_unmatched_fails { init_interpreter [43, 93] (fun _ => 0) [] with
      exec_ptr := 1, mem_buf := fun p => if p = 0 then 1 else 0 }
    (by decide) (by decide) (by decide) (by decide) (by decide)⟩

/-- C9 fails on the code: on the program `[[` and a fresh tape the first call
of `tick_interpreter` returns continue and leaves the instruction pointer
at 4, past the end of the 2-byte program, whatever byte follows the buffer. -/
theorem instruction_pointer_leaves_program (heap : Int → Nat) (input : List Nat) :
    ∃ s1, reachable (init_interpreter [91, 91] heap input) s1 ∧
      s1.exec_size = 2 ∧ s1.exec_ptr = 4 := by
  have hc : (init_interpreter [91, 91] heap input).exec_buf
      (init_interpreter [91, 91] heap input).exec_ptr = 91 := by
    simp [init_interpreter, load_exec]
  refine ⟨{ init_interpreter [91, 91] heap input with exec_ptr := 4 },
    reachable.tick _ _ true reachable.start ?_, rfl, rfl⟩
  rw [tick_open _ (by simp [init_interpreter]) hc]
  by_cases h1 : heap 2 = 91
  · simp [init_interpreter, cur_cell, fwd_fuel, scan_fwd, MEMORY_SIZE, advance, load_exec,
      count_fwd, h1]
  · by_cases h2 : heap 2 = 93
    · simp [init_interpreter, cur_cell, fwd_fuel, scan_fwd, MEMORY_SIZE, advance, load_exec,
        count_fwd, h2]
    · simp [init_interpreter, cur_cell, fwd_fuel, scan_fwd, MEMORY_SIZE, advance, load_exec,
        count_fwd, h1, h2]

/-- C5 at a concrete surrounding: the run of `[` ends with a call that
returns stop, not with an exit. -/
theorem unmatched_open_runs_to_normal_end_witness :
    run 2 (init_interpreter [91] (fun _ => 0) []) =
      some (.ret false { init_interpreter [91] (fun _ => 0) [] with exec_ptr := 1 }) :=
  (unmatched_open_runs_to_normal_end (fun _ => 0) []).2.2.2.2

/-! ## The run against the structured reference semantics -/

theorem flatten_blanks (n : Nat) : flatten (blanks n) = List.replicate n 32 := by
  induction n with
  | zero => rfl
  | succ n ih => rw [blanks, flatten, ih, List.replicate_succ]

theorem well_formed_blanks (n : Nat) : well_formed (blanks n) := by
  induction n with
  | zero => trivial
  | succ n ih => exact ⟨by decide, by decide, ih⟩

/-- C1 fails on the code: `long_loop` has balanced brackets (it is the
flattening of a well-formed structured program) and its reference run on the
fresh tape terminates normally, the loop being skipped, with tape, pointer,
input and output as at the start; the interpreter on the same program exits
on its first step with status 2 and the message `unmatched '['`. -/
theorem long_loop_run_differs_from_reference (heap : Int → Nat) (input : List Nat) :
    flatten long_loop_prog = long_loop ∧ well_formed long_loop_prog ∧
    ref_exec 2 long_loop_prog (ref_init input) = some (.ok (ref_init input)) ∧
    run 1 (init_interpreter long_loop heap input) =
      some (.exited 2 .unmatched_open
        { init_interpreter long_loop heap input with exec_ptr := 30000 }) := by
  refine ⟨?_, ⟨well_formed_blanks _, trivial⟩, ?_, ?_⟩
  · rw [long_loop_prog, flatten, flatten_blanks]; rfl
  · simp [long_loop_prog, ref_exec, ref_init]
  · have h := tick_open_at_capacity (init_interpreter long_loop heap input) 30000
      (le_refl 0) (long_loop_close_inside _ _) (long_loop_open _ _) rfl
      (long_loop_matches _) rfl
    rw [run, h]

/-- C1 at a concrete surrounding of the buffer and an empty input. -/
theorem long_loop_run_differs_from_reference_witness :
    ref_exec 2 long_loop_prog (ref_init []) = some (.ok (ref_init [])) ∧
    run 1 (init_interpreter long_loop (fun _ => 0) []) =
      some (.exited 2 .unmatched_open
        { init_interpreter long_loop (fun _ => 0) [] with exec_ptr := 30000 }) :=
  (long_loop_run_differs_from_reference (fun _ => 0) []).2.2

/-! ## Several steps in a row, and cell arithmetic -/

theorem wrap_int_of_range (v : Int) (h : in_int_range v) : wrap_int v = v := by
  unfold in_int_range at h; unfold wrap_int; omega

theorem wrap_int_range (v : Int) : in_int_range (wrap_int v) := by
  unfold in_int_range wrap_int; omega

theorem wrap_int_add (a b : Int) : wrap_int (wrap_int a + b) = wrap_int (a + b) := by
  unfold wrap_int; omega

theorem wrap_int_mod_256 (v : Int) : wrap_int v % 256 = v % 256 := by
  unfold wrap_int; omega

theorem wrap_int_eq_iff (v : Int) (n : Nat) (h : in_int_range v) :
    wrap_int (v + n) = v ↔ n % 4294967296 = 0 := by
  unfold in_int_range at h; unfold wrap_int; omega

theorem cur_cell_set_cell (s : bf_state) (v : Int) : cur_cell (set_cell s v) = v := by
  simp [cur_cell, set_cell]

theorem set_cell_set_cell (s : bf_state) (a b : Int) :
    set_cell (set_cell s a) b = set_cell s b := by
  simp only [set_cell, bf_state.mk.injEq, true_and, and_true]
  funext p
  split_ifs <;> rfl

theorem set_cell_cur_cell (s : bf_state) : set_cell s (cur_cell s) = s := by
  cases s
  simp only [set_cell, cur_cell, bf_state.mk.injEq, true_and, and_true]
  funext p
  split_ifs with h
  · rw [h]
  · rfl

theorem tick_n_succ_true (n : Nat) (s s1 : bf_state)
    (h : tick_interpreter s = .ret true s1) : tick_n (n + 1) s = tick_n n s1 := by
  rw [tick_n, h]

theorem tick_n_succ_false (n : Nat) (s s1 : bf_state)
    (h : tick_interpreter s = .ret false s1) : tick_n (n + 1) s = .ret false s1 := by
  rw [tick_n, h]

theorem tick_n_succ_exited (n : Nat) (s s1 : bf_state) (c : Nat) (m : bf_fault)
    (h : tick_interpreter s = .exited c m s1) : tick_n (n + 1) s = .exited c m s1 := by
  rw [tick_n, h]

theorem tick_n_add (a b : Nat) (s s1 : bf_state) (h : tick_n a s = .ret true s1) :
    tick_n (a + b) s = tick_n b s1 := by
  induction a generalizing s with
  | zero =>
    simp only [tick_n, tick_result.ret.injEq, true_and] at h
    subst h; simp
  | succ a ih =>
    rw [Nat.add_right_comm]
    cases ht : tick_interpreter s with
    | ret c s2 =>
      cases c with
      | true =>
        rw [tick_n_succ_true _ _ _ ht] at h ⊢
        exact ih s2 h
      | false =>
        rw [tick_n_succ_false _ _ _ ht] at h
        simp at h
    | exited c m s2 =>
      rw [tick_n_succ_exited _ _ _ _ _ ht] at h
      simp at h

theorem tick_n_add_exited (a b : Nat) (s s1 : bf_state) (c : Nat) (m : bf_fault)
    (h : tick_n a s = .exited c m s1) : tick_n (a + b) s = .exited c m s1 := by
  induction a generalizing s with
  | zero => simp [tick_n] at h
  | succ a ih =>
    rw [Nat.add_right_comm]
    cases ht : tick_interpreter s with
    | ret d s2 =>
      cases d with
      | true =>
        rw [tick_n_succ_true _ _ _ ht] at h ⊢
        exact ih s2 h
      | false =>
        rw [tick_n_succ_false _ _ _ ht] at h
        simp at h
    | exited d m2 s2 =>
      rw [tick_n_succ_exited _ _ _ _ _ ht] at h ⊢
      exact h

/-- A run of `n` bytes `+` adds `n` to the current cell, with 32-bit
wraparound, and touches nothing else but the instruction pointer. -/
theorem tick_n_plus (n : Nat) : ∀ s : bf_state, in_int_range (cur_cell s) →
    (∀ k : Nat, k < n → s.exec_buf (s.exec_ptr + k) = 43) →
    s.exec_ptr + n ≤ (s.exec_size : Int) →
    tick_n n s = .ret true
      { set_cell s (wrap_int (cur_cell s + n)) with exec_ptr := s.exec_ptr + n } := by
  induction n with
  | zero =>
    intro s hr _ _
    simp only [tick_n, Nat.cast_zero, add_zero, wrap_int_of_range _ hr, set_cell_cur_cell]
  | succ n ih =>
    intro s hr hb hs
    have h0 : s.exec_buf s.exec_ptr = 43 := by simpa using hb 0 (by omega)
    have hend : ¬ (s.exec_size : Int) ≤ s.exec_ptr := by push_cast at hs; omega
    rw [tick_n_succ_true n s _ (tick_plus s hend h0)]
    rw [ih _ (by simp only [cur_cell, set_cell, ↓reduceIte]; exact wrap_int_range _)
      (fun k hk => by
        have := hb (k + 1) (by omega)
        simp only [set_cell]
        rw [← this]; congr 1; push_cast; ring)
      (by simp only [set_cell]; push_cast at hs ⊢; omega)]
    simp only [set_cell, cur_cell, ↓reduceIte, tick_result.ret.injEq, bf_state.mk.injEq,
      true_and, and_true]
    refine ⟨by push_cast; ring, ?_⟩
    funext p
    split_ifs
    · rw [wrap_int_add]; congr 1; push_cast; ring
    · rfl

theorem load_exec_replicate (n c : Nat) (heap : Int → Nat) (p : Int) (h0 : 0 ≤ p)
    (h1 : p < (n : Int)) : load_exec (List.replicate n c) heap p = c := by
  unfold load_exec
  rw [List.length_replicate, if_pos ⟨h0, h1⟩]
  simp only [List.getD_eq_getElem?_getD, List.getElem?_replicate]
  rw [if_pos (by omega)]; rfl

/-- C11, as the code behaves: tape cells are 32-bit `int`s. A run of `n`
bytes `+` executed on the same cell, which holds `v`, leaves it holding
`v + n` wrapped to 32 bits; the cell is back to `v` exactly when `n` is a
multiple of `2^32`, so not after 256 steps, after which only its byte value
(the cell modulo 256, what `.` writes) is that of `v` again. -/
theorem plus_run_wraps_at_32_bits (s : bf_state) (n : Nat)
    (hr : in_int_range (cur_cell s))
    (hb : ∀ k : Nat, k < n → s.exec_buf (s.exec_ptr + k) = 43)
    (hs : s.exec_ptr + n ≤ (s.exec_size : Int)) :
    tick_n n s = .ret true
      { set_cell s (wrap_int (cur_cell s + n)) with exec_ptr := s.exec_ptr + n } ∧
    (wrap_int (cur_cell s + n) = cur_cell s ↔ n % 4294967296 = 0) ∧
    (n = 256 → wrap_int (cur_cell s + n) ≠ cur_cell s ∧
      putchar_byte (wrap_int (cur_cell s + n)) = putchar_byte (cur_cell s)) := by
  refine ⟨tick_n_plus n s hr hb hs, wrap_int_eq_iff _ n hr, fun h => ?_⟩
  subst h
  refine ⟨fun e => ?_, ?_⟩
  · have := (wrap_int_eq_iff _ 256 hr).mp e
    omega
  · unfold putchar_byte
    rw [wrap_int_mod_256]
    congr 1
    push_cast
    omega

/-- C11 on the program `+++` and a fresh tape: three steps, and cell 0 holds
0 + 3. -/
theorem plus_run_wraps_at_32_bits_witness :
    tick_n 3 (init_interpreter [43, 43, 43] (fun _ => 0) []) = .ret true
      { set_cell (init_interpreter [43, 43, 43] (fun _ => 0) [])
          (wrap_int (cur_cell (init_interpreter [43, 43, 43] (fun _ => 0) []) + (3 : Nat)))
        with exec_ptr := (init_interpreter [43, 43, 43] (fun _ => 0) []).exec_ptr + (3 : Nat) } :=
  (plus_run_wraps_at_32_bits (init_interpreter [43, 43, 43] (fun _ => 0) []) 3
    (by decide) (by decide) (by decide)).1

theorem init_cell_in_range (file : List Nat) (heap : Int → Nat) (input : List Nat) :
    in_int_range (cur_cell (init_interpreter file heap input)) :=
  ⟨by simp [cur_cell, init_interpreter], by simp [cur_cell, init_interpreter]⟩

theorem cur_cell_moved (s : bf_state) (v p : Int) :
    cur_cell { set_cell s v with exec_ptr := p } = v := by
  simp only [cur_cell, set_cell, ↓reduceIte]

theorem replicate_program_bytes (n c : Nat) (heap : Int → Nat) (input : List Nat) :
    ∀ k : Nat, k < n →
      (init_interpreter (List.replicate n c) heap input).exec_buf
        ((init_interpreter (List.replicate n c) heap input).exec_ptr + k) = c :=
  fun k hk => by
    simp only [init_interpreter]
    exact load_exec_replicate n c _ _ (by omega) (by omega)

theorem replicate_program_size (n c : Nat) (heap : Int → Nat) (input : List Nat) :
    (init_interpreter (List.replicate n c) heap input).exec_ptr + n ≤
      ((init_interpreter (List.replicate n c) heap input).exec_size : Int) := by
  simp only [init_interpreter, List.length_replicate]; omega

/-- The program made of `n` bytes `+`, run for `n` steps on a fresh tape,
leaves `n` (wrapped to 32 bits) in cell 0. -/
theorem tick_n_plus_program (n : Nat) (heap : Int → Nat) (input : List Nat) :
    ∃ s1, tick_n n (init_interpreter (List.replicate n 43) heap input) = .ret true s1 ∧
      cur_cell s1 = wrap_int n ∧ s1.mem_ptr = 0 := by
  have h := tick_n_plus n (init_interpreter (List.replicate n 43) heap input)
    (init_cell_in_range _ _ _) (replicate_program_bytes n 43 heap input)
    (replicate_program_size n 43 heap input)
  have e : cur_cell (init_interpreter (List.replicate n 43) heap input) + (n : Int) = n :=
    zero_add _
  exact ⟨_, h, (cur_cell_moved _ _ _).trans (congrArg wrap_int e), rfl⟩

/-- C11 fails as stated: on the program of 256 bytes `+` and a fresh tape,
the 256 steps all return continue and take cell 0 from 0 to 256. -/
theorem plus_256_does_not_return :
    ∃ s1, tick_n 256 (init_interpreter (List.replicate 256 43) (fun _ => 0) [])
        = .ret true s1 ∧
      cur_cell (init_interpreter (List.replicate 256 43) (fun _ => 0) []) = 0 ∧
      cur_cell s1 = 256 ∧ s1.mem_ptr = 0 := by
  obtain ⟨s1, h1, h2, h3⟩ := tick_n_plus_program 256 (fun _ => 0) []
  exact ⟨s1, h1, rfl, by rw [h2]; decide, h3⟩

/-! ## Comments, cell updates, bracket fall-through and output -/

theorem tick_exited_frame (s s1 : bf_state) (c : Nat) (m : bf_fault)
    (h : tick_interpreter s = .exited c m s1) : step_frame s s1 := by
  by_cases hend : (s.exec_size : Int) ≤ s.exec_ptr
  · rw [tick_at_end s hend] at h; simp at h
  · rcases tick_shape s hend with ⟨s2, h2, -⟩ | ⟨m2, s2, h2, hf⟩
    · rw [h2] at h; simp at h
    · rw [h2] at h
      simp only [tick_result.exited.injEq] at h
      rw [← h.2.2]; exact hf

/-- C12: a byte that is none of the eight commands is a no-op: the step
returns continue, moves the instruction pointer by exactly 1 and leaves the
tape, the memory pointer, the output and the input as they were. And no
step, whatever it executes and however it ends, changes the program bytes
or the program size. -/
theorem comment_byte_is_noop (s : bf_state) (hip : s.exec_ptr < (s.exec_size : Int))
    (hc : ¬ is_command (s.exec_buf s.exec_ptr)) :
    tick_interpreter s = .ret true { s with exec_ptr := s.exec_ptr + 1 } ∧
    (∀ (t t1 : bf_state) (b : Bool), tick_interpreter t = .ret b t1 →
      t1.exec_buf = t.exec_buf ∧ t1.exec_size = t.exec_size) ∧
    (∀ (t t1 : bf_state) (c : Nat) (m : bf_fault), tick_interpreter t = .exited c m t1 →
      t1.exec_buf = t.exec_buf ∧ t1.exec_size = t.exec_size) :=
  ⟨tick_other s (by omega) hc,
   fun t t1 b h => ⟨(tick_ret_frame t t1 b h).1, (tick_ret_frame t t1 b h).2.1⟩,
   fun t t1 c m h => ⟨(tick_exited_frame t t1 c m h).1, (tick_exited_frame t t1 c m h).2.1⟩⟩

/-- C12 on the program `a+` (the byte 97 is a comment) and a fresh tape. -/
theorem comment_byte_is_noop_witness :
    tick_interpreter (init_interpreter [97, 43] (fun _ => 0) []) =
      .ret true { init_interpreter [97, 43] (fun _ => 0) [] with
        exec_ptr := (init_interpreter [97, 43] (fun _ => 0) []).exec_ptr + 1 } :=
  (comment_byte_is_noop (init_interpreter [97, 43] (fun _ => 0) [])
    (by decide) (by decide)).1

/-- C14: a `[` on a nonzero cell, and a `]` on a zero cell, do nothing but
advance the instruction pointer by exactly 1: the step returns continue with
the tape, the memory pointer and the streams unchanged, without any scan,
so whether or not the bracket has a match. -/
theorem bracket_falls_through (s : bf_state) (hip : s.exec_ptr < (s.exec_size : Int))
    (h : (s.exec_buf s.exec_ptr = 91 ∧ cur_cell s ≠ 0) ∨
      (s.exec_buf s.exec_ptr = 93 ∧ cur_cell s = 0)) :
    tick_interpreter s = .ret true { s with exec_ptr := s.exec_ptr + 1 } := by
  have hend : ¬ (s.exec_size : Int) ≤ s.exec_ptr := by omega
  rcases h with ⟨hc, hz⟩ | ⟨hc, hz⟩
  · rw [tick_open s hend hc, if_pos hz]; rfl
  · rw [tick_close s hend hc, if_pos hz]; rfl

/-- C14 on the one-byte program `]`, which has no match, and a fresh tape:
the step advances to offset 1. -/
theorem bracket_falls_through_witness :
    tick_interpreter (init_interpreter [93] (fun _ => 0) []) =
      .ret true { init_interpreter [93] (fun _ => 0) [] with
        exec_ptr := (init_interpreter [93] (fun _ => 0) []).exec_ptr + 1 } :=
  bracket_falls_through (init_interpreter [93] (fun _ => 0) []) (by decide)
    (Or.inr ⟨by decide, by decide⟩)

/-- C19: `.` appends exactly one byte to standard output, the current cell
reduced modulo 256 into 0..255 (a cell holding -1 writes 255, a cell holding
256 writes 0), leaves the tape, the memory pointer and the input unchanged,
and advances the instruction pointer by 1. -/
theorem tick_dot_writes_byte (s : bf_state) (hip : s.exec_ptr < (s.exec_size : Int))
    (hc : s.exec_buf s.exec_ptr = 46) :
    tick_interpreter s = .ret true
      { s with stdout := s.stdout ++ [putchar_byte (cur_cell s)],
               exec_ptr := s.exec_ptr + 1 } ∧
    putchar_byte (cur_cell s) < 256 ∧
    ((putchar_byte (cur_cell s) : Nat) : Int) = cur_cell s % 256 ∧
    putchar_byte (-1) = 255 ∧ putchar_byte 256 = 0 := by
  refine ⟨tick_dot s (by omega) hc, ?_, ?_, by decide, by decide⟩
  · unfold putchar_byte; omega
  · unfold putchar_byte; omega

/-- C19 on the program `.` with -1 in the current cell: the byte 255 is
written. -/
theorem tick_dot_writes_byte_witness :
    tick_interpreter { init_interpreter [46] (fun _ => 0) [] with mem_buf := fun _ => -1 } =
      .ret true
        { init_interpreter [46] (fun _ => 0) [] with
          mem_buf := fun _ => -1,
          stdout := [] ++ [putchar_byte (-1)],
          exec_ptr := 0 + 1 } ∧ putchar_byte (-1) = 255 :=
  ⟨(tick_dot_writes_byte
      { init_interpreter [46] (fun _ => 0) [] with mem_buf := fun _ => -1 }
      (by decide) (by decide)).1, by decide⟩

/-! ## Program segments and whole runs -/

theorem seg_load (file : List Nat) (heap : Int → Nat) : seg (load_exec file heap) 0 file := by
  intro k hk
  unfold load_exec
  rw [if_pos ⟨by omega, by omega⟩]
  congr 1
  omega

theorem seg_init (file : List Nat) (heap : Int → Nat) (input : List Nat) :
    seg (init_interpreter file heap input).exec_buf 0 file := seg_load file heap

theorem seg_append_left (buf : Int → Nat) (a : Int) (l1 l2 : List Nat)
    (h : seg buf a (l1 ++ l2)) : seg buf a l1 := by
  intro k hk
  rw [h k (by rw [List.length_append]; omega)]
  simp only [List.getD_eq_getElem?_getD, List.getElem?_append_left hk]

theorem seg_append_right (buf : Int → Nat) (a : Int) (l1 l2 : List Nat)
    (h : seg buf a (l1 ++ l2)) : seg buf (a + l1.length) l2 := by
  intro k hk
  have := h (l1.length + k) (by rw [List.length_append]; omega)
  rw [show a + (l1.length : Int) + (k : Int) = a + ((l1.length + k : Nat) : Int) by
    push_cast; ring, this]
  simp only [List.getD_eq_getElem?_getD]
  rw [List.getElem?_append_right (by omega)]
  congr 2
  omega

theorem seg_cons_head (buf : Int → Nat) (a : Int) (c : Nat) (l : List Nat)
    (h : seg buf a (c :: l)) : buf a = c := by
  have := h 0 (by simp)
  simpa using this

theorem seg_cons_tail (buf : Int → Nat) (a : Int) (c : Nat) (l : List Nat)
    (h : seg buf a (c :: l)) : seg buf (a + 1) l := by
  have := seg_append_right buf a [c] l h
  simpa using this

theorem seg_replicate (buf : Int → Nat) (a : Int) (n c : Nat)
    (h : seg buf a (List.replicate n c)) : ∀ k : Nat, k < n → buf (a + k) = c := by
  intro k hk
  rw [h k (by rw [List.length_replicate]; exact hk)]
  simp only [List.getD_eq_getElem?_getD, List.getElem?_replicate]
  rw [if_pos hk]; rfl

theorem run_succ_true (n : Nat) (s s1 : bf_state)
    (h : tick_interpreter s = .ret true s1) : run (n + 1) s = run n s1 := by
  rw [run, h]

theorem run_succ_false (n : Nat) (s s1 : bf_state)
    (h : tick_interpreter s = .ret false s1) : run (n + 1) s = some (.ret false s1) := by
  rw [run, h]

theorem run_succ_exited (n : Nat) (s s1 : bf_state) (c : Nat) (m : bf_fault)
    (h : tick_interpreter s = .exited c m s1) : run (n + 1) s = some (.exited c m s1) := by
  rw [run, h]

/-- The loop of `main` after `k` calls that all returned true. -/
theorem run_of_tick_n (k m : Nat) (s s1 : bf_state) (h : tick_n k s = .ret true s1) :
    run (k + m) s = run m s1 := by
  induction k generalizing s with
  | zero =>
    simp only [tick_n, tick_result.ret.injEq, true_and] at h
    subst h; simp
  | succ k ih =>
    rw [Nat.add_right_comm]
    cases ht : tick_interpreter s with
    | ret c s2 =>
      cases c with
      | true =>
        rw [tick_n_succ_true _ _ _ ht] at h
        rw [run_succ_true _ _ _ ht]
        exact ih s2 h
      | false =>
        rw [tick_n_succ_false _ _ _ ht] at h
        simp at h
    | exited c m2 s2 =>
      rw [tick_n_succ_exited _ _ _ _ _ ht] at h
      simp at h

/-- The loop of `main` when one of the first `k` calls exits. -/
theorem run_of_tick_n_exited (k m : Nat) (s s1 : bf_state) (c : Nat) (e : bf_fault)
    (h : tick_n k s = .exited c e s1) : run (k + m) s = some (.exited c e s1) := by
  induction k generalizing s with
  | zero => simp [tick_n] at h
  | succ k ih =>
    rw [Nat.add_right_comm]
    cases ht : tick_interpreter s with
    | ret d s2 =>
      cases d with
      | true =>
        rw [tick_n_succ_true _ _ _ ht] at h
        rw [run_succ_true _ _ _ ht]
        exact ih s2 h
      | false =>
        rw [tick_n_succ_false _ _ _ ht] at h
        simp at h
    | exited d m2 s2 =>
      rw [tick_n_succ_exited _ _ _ _ _ ht] at h
      rw [run_succ_exited _ _ _ _ _ ht, h]

/-! ## The steps on states given field by field -/

theorem tick_mk_end (B : Int → Nat) (n : Nat) (ip : Int) (M : Int → Int) (ms : Nat)
    (mp : Int) (inp out : List Nat) (h : (n : Int) ≤ ip) :
    tick_interpreter ⟨B, n, ip, M, ms, mp, inp, out⟩ =
      .ret false ⟨B, n, ip, M, ms, mp, inp, out⟩ :=
  tick_at_end _ h

theorem tick_mk_plus (B : Int → Nat) (n : Nat) (ip : Int) (M : Int → Int) (ms : Nat)
    (mp : Int) (inp out : List Nat) (h : ip < (n : Int)) (hc : B ip = 43) :
    tick_interpreter ⟨B, n, ip, M, ms, mp, inp, out⟩ =
      .ret true ⟨B, n, ip + 1, fun p => if p = mp then wrap_int (M mp + 1) else M p,
        ms, mp, inp, out⟩ :=
  tick_plus _ (not_le.mpr h) hc

theorem tick_mk_minus (B : Int → Nat) (n : Nat) (ip : Int) (M : Int → Int) (ms : Nat)
    (mp : Int) (inp out : List Nat) (h : ip < (n : Int)) (hc : B ip = 45) :
    tick_interpreter ⟨B, n, ip, M, ms, mp, inp, out⟩ =
      .ret true ⟨B, n, ip + 1, fun p => if p = mp then wrap_int (M mp - 1) else M p,
        ms, mp, inp, out⟩ :=
  tick_minus _ (not_le.mpr h) hc

theorem tick_mk_dot (B : Int → Nat) (n : Nat) (ip : Int) (M : Int → Int) (ms : Nat)
    (mp : Int) (inp out : List Nat) (h : ip < (n : Int)) (hc : B ip = 46) :
    tick_interpreter ⟨B, n, ip, M, ms, mp, inp, out⟩ =
      .ret true ⟨B, n, ip + 1, M, ms, mp, inp, out ++ [putchar_byte (M mp)]⟩ :=
  tick_dot _ (not_le.mpr h) hc

theorem tick_mk_comma (B : Int → Nat) (n : Nat) (ip : Int) (M : Int → Int) (ms : Nat)
    (mp : Int) (inp out : List Nat) (h : ip < (n : Int)) (hc : B ip = 44) :
    tick_interpreter ⟨B, n, ip, M, ms, mp, inp, out⟩ =
      .ret true ⟨B, n, ip + 1, fun p => if p = mp then getchar_value inp else M p,
        ms, mp, inp.tail, out⟩ :=
  tick_comma _ (not_le.mpr h) hc

theorem tick_open_nonzero (s : bf_state) (h : s.exec_ptr < (s.exec_size : Int))
    (hc : s.exec_buf s.exec_ptr = 91) (hz : cur_cell s ≠ 0) :
    tick_interpreter s = .ret true { s with exec_ptr := s.exec_ptr + 1 } := by
  rw [tick_open s (not_le.mpr h) hc, if_pos hz]; rfl

theorem tick_close_zero (s : bf_state) (h : s.exec_ptr < (s.exec_size : Int))
    (hc : s.exec_buf s.exec_ptr = 93) (hz : cur_cell s = 0) :
    tick_interpreter s = .ret true { s with exec_ptr := s.exec_ptr + 1 } := by
  rw [tick_close s (not_le.mpr h) hc, if_pos hz]; rfl

theorem tick_mk_open_nonzero (B : Int → Nat) (n : Nat) (ip : Int) (M : Int → Int) (ms : Nat)
    (mp : Int) (inp out : List Nat) (h : ip < (n : Int)) (hc : B ip = 91)
    (hz : M mp ≠ 0) :
    tick_interpreter ⟨B, n, ip, M, ms, mp, inp, out⟩ =
      .ret true ⟨B, n, ip + 1, M, ms, mp, inp, out⟩ :=
  tick_open_nonzero _ h hc hz

theorem tick_mk_close_zero (B : Int → Nat) (n : Nat) (ip : Int) (M : Int → Int) (ms : Nat)
    (mp : Int) (inp out : List Nat) (h : ip < (n : Int)) (hc : B ip = 93)
    (hz : M mp = 0) :
    tick_interpreter ⟨B, n, ip, M, ms, mp, inp, out⟩ =
      .ret true ⟨B, n, ip + 1, M, ms, mp, inp, out⟩ :=
  tick_close_zero _ h hc hz

theorem tick_mk_close_jump (B : Int → Nat) (n : Nat) (ip : Int) (M : Int → Int) (ms : Nat)
    (mp : Int) (inp out : List Nat) (i : Int) (h0 : 0 ≤ i) (h : ip < (n : Int))
    (hc : B ip = 93) (hz : M mp ≠ 0) (hm : matches_open B ip i) :
    tick_interpreter ⟨B, n, ip, M, ms, mp, inp, out⟩ =
      .ret true ⟨B, n, i + 1, M, ms, mp, inp, out⟩ :=
  tick_close_jump _ i h0 h hc hz hm

theorem tick_mk_open_jump (B : Int → Nat) (n : Nat) (ip : Int) (M : Int → Int) (ms : Nat)
    (mp : Int) (inp out : List Nat) (j : Int) (h0 : 0 ≤ ip) (h : j < (n : Int))
    (hc : B ip = 91) (hz : M mp = 0) (hm : matches_close B ip j) (hcap : j ≠ (ms : Int)) :
    tick_interpreter ⟨B, n, ip, M, ms, mp, inp, out⟩ =
      .ret true ⟨B, n, j + 1, M, ms, mp, inp, out⟩ :=
  tick_open_jump _ j h0 h hc hz hm hcap

theorem init_interpreter_mk (file : List Nat) (heap : Int → Nat) (input : List Nat) :
    init_interpreter file heap input =
      ⟨load_exec file heap, file.length, 0, fun _ => 0, MEMORY_SIZE, 0, input, []⟩ := rfl

/-! ## Input -/

theorem getchar_value_cons (b : Nat) (rest : List Nat) (hb : b < 256) :
    getchar_value (b :: rest) = (b : Int) := by
  simp only [getchar_value, Nat.mod_eq_of_lt hb]

theorem putchar_byte_nat (b : Nat) (hb : b < 256) : putchar_byte (b : Int) = b := by
  unfold putchar_byte; omega

/-- The run of the program `,.`: one byte read, the same byte written. -/
theorem echo_run (heap : Int → Nat) (b : Nat) (rest : List Nat) (hb : b < 256) :
    ∃ s1, run 3 (init_interpreter [44, 46] heap (b :: rest)) = some (.ret false s1) ∧
      s1.stdout = [b] ∧ s1.stdin = rest := by
  have hB0 : load_exec [44, 46] heap 0 = 44 := seg_cons_head _ _ _ _ (seg_load _ heap)
  have hB1 : load_exec [44, 46] heap (0 + 1) = 46 :=
    seg_cons_head _ _ _ _ (seg_cons_tail _ _ _ _ (seg_load _ heap))
  have h1 := tick_mk_comma (load_exec [44, 46] heap) 2 0 (fun _ => 0) MEMORY_SIZE 0
    (b :: rest) [] (by decide) hB0
  have h2 := tick_mk_dot (load_exec [44, 46] heap) 2 (0 + 1)
    (fun p => if p = 0 then getchar_value (b :: rest) else 0) MEMORY_SIZE 0 rest []
    (by decide) hB1
  have h3 := tick_mk_end (load_exec [44, 46] heap) 2 (0 + 1 + 1)
    (fun p => if p = 0 then getchar_value (b :: rest) else 0) MEMORY_SIZE 0 rest
    ([] ++ [putchar_byte ((fun p => if p = 0 then getchar_value (b :: rest) else 0) 0)])
    (by decide)
  refine ⟨_, (run_succ_true 2 _ _ h1).trans ((run_succ_true 1 _ _ h2).trans
    (run_succ_false 0 _ _ h3)), ?_, rfl⟩
  simp only [↓reduceIte, getchar_value_cons b rest hb, putchar_byte_nat b hb, List.nil_append]

/-- C20: `,` takes the first byte `b` off standard input and stores it in
the current cell as a value in 0..255, or stores -1 and leaves the empty
input empty at end of file; every other cell, the memory pointer and the
output are unchanged and the instruction pointer advances by 1. The program
`,.` on an input that starts with the byte `b` writes exactly `b`. -/
theorem tick_comma_reads_byte (s : bf_state) (hip : s.exec_ptr < (s.exec_size : Int))
    (hc : s.exec_buf s.exec_ptr = 44) :
    tick_interpreter s = .ret true
      { set_cell s (getchar_value s.stdin) with
        stdin := s.stdin.tail, exec_ptr := s.exec_ptr + 1 } ∧
    (∀ b rest, s.stdin = b :: rest → b < 256 →
      getchar_value s.stdin = (b : Int) ∧ s.stdin.tail = rest) ∧
    (s.stdin = [] → getchar_value s.stdin = -1 ∧ s.stdin.tail = []) ∧
    (∀ v p : Int, p ≠ s.mem_ptr → (set_cell s v).mem_buf p = s.mem_buf p) ∧
    (∀ v : Int, cur_cell (set_cell s v) = v ∧ (set_cell s v).mem_ptr = s.mem_ptr) ∧
    (∀ (heap : Int → Nat) (b : Nat) (rest : List Nat), b < 256 →
      ∃ s1, run 3 (init_interpreter [44, 46] heap (b :: rest)) = some (.ret false s1) ∧
        s1.stdout = [b] ∧ s1.stdin = rest) := by
  refine ⟨tick_comma s (by omega) hc, ?_, ?_, fun v p hp => by simp [set_cell, hp],
    fun v => ⟨cur_cell_set_cell s v, rfl⟩, fun heap b rest hb => echo_run heap b rest hb⟩
  · intro b rest hs hb
    rw [hs]
    exact ⟨getchar_value_cons b rest hb, rfl⟩
  · intro hs
    rw [hs]
    exact ⟨rfl, rfl⟩

/-- C20 on the program `,.` with the input `A` (65): the first step stores
65 in cell 0, and the whole run writes the byte 65. -/
theorem tick_comma_reads_byte_witness :
    tick_interpreter (init_interpreter [44, 46] (fun _ => 0) [65]) = .ret true
      { set_cell (init_interpreter [44, 46] (fun _ => 0) [65])
          (getchar_value (init_interpreter [44, 46] (fun _ => 0) [65]).stdin) with
        stdin := (init_interpreter [44, 46] (fun _ => 0) [65]).stdin.tail,
        exec_ptr := (init_interpreter [44, 46] (fun _ => 0) [65]).exec_ptr + 1 } ∧
    ∃ s1, run 3 (init_interpreter [44, 46] (fun _ => 0) [65]) = some (.ret false s1) ∧
      s1.stdout = [65] ∧ s1.stdin = [] :=
  ⟨(tick_comma_reads_byte (init_interpreter [44, 46] (fun _ => 0) [65])
      (by decide) (by decide)).1,
   (tick_comma_reads_byte (init_interpreter [44, 46] (fun _ => 0) [65])
      (by decide) (by decide)).2.2.2.2.2 (fun _ => 0) 65 [] (by decide)⟩

/-! ## End-to-end runs -/

theorem tick_n_mk_plus (n : Nat) (B : Int → Nat) (sz : Nat) (ip : Int) (M : Int → Int)
    (ms : Nat) (mp : Int) (inp out : List Nat) (hr : in_int_range (M mp))
    (hb : ∀ k : Nat, k < n → B (ip + k) = 43) (hs : ip + n ≤ (sz : Int)) :
    tick_n n ⟨B, sz, ip, M, ms, mp, inp, out⟩ =
      .ret true ⟨B, sz, ip + n, fun p => if p = mp then wrap_int (M mp + n) else M p,
        ms, mp, inp, out⟩ :=
  tick_n_plus n _ hr hb hs

theorem wrap_int_nat (n : Nat) (hn : n < 2147483648) : wrap_int (0 + (n : Int)) = n := by
  unfold wrap_int; omega

theorem putchar_byte_nat_mod (n : Nat) : putchar_byte (n : Int) = n % 256 := by
  unfold putchar_byte; omega

/-- C16: for `n` below the overflow point of a cell, the program made of `n`
bytes `+` followed by `.`, run on a fresh tape, writes exactly one byte, of
value `n mod 256`, and then halts normally: the call after the `.` returns
stop, with the instruction pointer at the end of the program. -/
theorem plus_then_dot_run (n : Nat) (hn : n < 2147483648) (heap : Int → Nat)
    (input : List Nat) :
    ∃ s1, run (n + 2) (init_interpreter (List.replicate n 43 ++ [46]) heap input) =
        some (.ret false s1) ∧
      s1.stdout = [n % 256] ∧ s1.exec_ptr = (s1.exec_size : Int) ∧
      cur_cell s1 = n ∧ s1.stdin = input := by
  have hseg := seg_load (List.replicate n 43 ++ [46]) heap
  have hl : (List.replicate n 43 ++ [46]).length = n + 1 := by
    rw [List.length_append, List.length_replicate]; rfl
  have hplus := seg_replicate _ _ _ _ (seg_append_left _ _ _ _ hseg)
  have hdot : load_exec (List.replicate n 43 ++ [46]) heap (0 + n) = 46 := by
    have := seg_cons_head _ _ _ _ (seg_append_right _ _ _ _ hseg)
    rwa [List.length_replicate] at this
  have h1 := tick_n_mk_plus n (load_exec (List.replicate n 43 ++ [46]) heap)
    (List.replicate n 43 ++ [46]).length 0 (fun _ => 0) MEMORY_SIZE 0 input []
    (by decide) hplus (by rw [hl]; push_cast; omega)
  have h2 := tick_mk_dot (load_exec (List.replicate n 43 ++ [46]) heap)
    (List.replicate n 43 ++ [46]).length (0 + n)
    (fun p => if p = 0 then wrap_int (0 + n) else 0) MEMORY_SIZE 0 input []
    (by rw [hl]; push_cast; omega) hdot
  have h3 := tick_mk_end (load_exec (List.replicate n 43 ++ [46]) heap)
    (List.replicate n 43 ++ [46]).length (0 + n + 1)
    (fun p => if p = 0 then wrap_int (0 + n) else 0) MEMORY_SIZE 0 input
    ([] ++ [putchar_byte ((fun p => if p = 0 then wrap_int (0 + n) else 0) 0)])
    (by rw [hl]; push_cast; omega)
  rw [init_interpreter_mk]
  refine ⟨_, (run_of_tick_n n 2 _ _ h1).trans ((run_succ_true 1 _ _ h2).trans
    (run_succ_false 0 _ _ h3)), ?_, ?_, ?_, rfl⟩
  · show [] ++ [putchar_byte (if (0 : Int) = 0 then wrap_int (0 + (n : Int)) else 0)] =
      [n % 256]
    rw [if_pos rfl, wrap_int_nat n hn, putchar_byte_nat_mod]; rfl
  · show (0 : Int) + n + 1 = ((List.replicate n 43 ++ [46]).length : Int)
    rw [hl]; push_cast; ring
  · rw [cur_cell]
    show (if (0 : Int) = 0 then wrap_int (0 + (n : Int)) else 0) = (n : Int)
    rw [if_pos rfl, wrap_int_nat n hn]

/-- C16 on the program `++.`: the run writes the single byte 2 and halts. -/
theorem plus_then_dot_run_witness :
    ∃ s1, run (2 + 2) (init_interpreter (List.replicate 2 43 ++ [46]) (fun _ => 0) []) =
        some (.ret false s1) ∧
      s1.stdout = [2 % 256] ∧ s1.exec_ptr = (s1.exec_size : Int) ∧
      cur_cell s1 = (2 : Nat) ∧ s1.stdin = [] :=
  plus_then_dot_run 2 (by decide) (fun _ => 0) []

theorem clear_loop_matches (B : Int → Nat) (a : Int) (hseg : seg B a [91, 45, 93]) :
    matches_close B a (a + 2) ∧ matches_open B (a + 2) a := by
  have h0 : B a = 91 := seg_cons_head _ _ _ _ hseg
  have h1 : B (a + 1) = 45 := seg_cons_head _ _ _ _ (seg_cons_tail _ _ _ _ hseg)
  have h2 : B (a + 1 + 1) = 93 :=
    seg_cons_head _ _ _ _ (seg_cons_tail _ _ _ _ (seg_cons_tail _ _ _ _ hseg))
  have e : a + 1 + 1 = a + 2 := by ring
  rw [e] at h2
  have hc : matches_close B a (a + 2) := by
    apply matches_close_plain B a (a + 2) (by omega) h0 h2
    intro p hp1 hp2
    have : p = a + 1 := by omega
    rw [this, h1]
    exact ⟨by decide, by decide⟩
  exact ⟨hc, matches_close_symm B a (a + 2) h0 hc⟩

/-- The loop `[-]`, entered with `k > 0` in the current cell, takes `2k`
steps and leaves 0 in the cell. -/
theorem clear_loop_run (B : Int → Nat) (sz : Nat) (a : Int) (ms : Nat) (mp : Int)
    (inp out : List Nat) (hseg : seg B a [91, 45, 93]) (h0 : 0 ≤ a)
    (hsz : a + 3 ≤ (sz : Int)) :
    ∀ (k : Nat) (M : Int → Int), 1 ≤ k → k < 2147483648 → M mp = (k : Int) →
      tick_n (2 * k) ⟨B, sz, a + 1, M, ms, mp, inp, out⟩ =
        .ret true ⟨B, sz, a + 3, fun p => if p = mp then 0 else M p, ms, mp, inp, out⟩ := by
  have hb1 : B (a + 1) = 45 := seg_cons_head _ _ _ _ (seg_cons_tail _ _ _ _ hseg)
  have hb2 : B (a + 1 + 1) = 93 :=
    seg_cons_head _ _ _ _ (seg_cons_tail _ _ _ _ (seg_cons_tail _ _ _ _ hseg))
  have hmo : matches_open B (a + 1 + 1) a := by
    have := (clear_loop_matches B a hseg).2
    rwa [show a + 2 = a + 1 + 1 by ring] at this
  intro k
  induction k with
  | zero => intro M h; omega
  | succ k ih =>
    intro M _ hk hM
    have t1 := tick_mk_minus B sz (a + 1) M ms mp inp out (by omega) hb1
    have hcell : (fun p => if p = mp then wrap_int (M mp - 1) else M p) mp = (k : Int) := by
      simp only [↓reduceIte, hM]
      unfold wrap_int; push_cast; omega
    rw [show 2 * (k + 1) = 2 * k + 1 + 1 by ring, tick_n_succ_true _ _ _ t1]
    by_cases hk0 : k = 0
    · subst hk0
      have t2 := tick_mk_close_zero B sz (a + 1 + 1)
        (fun p => if p = mp then wrap_int (M mp - 1) else M p) ms mp inp out (by omega) hb2
        (by rw [hcell]; rfl)
      rw [tick_n_succ_true _ _ _ t2]
      simp only [Nat.mul_zero, tick_n, tick_result.ret.injEq, bf_state.mk.injEq, true_and,
        and_true]
      refine ⟨by ring, ?_⟩
      funext p
      by_cases hp : p = mp
      · simp only [hp, ↓reduceIte]
        have := hcell
        simp only [↓reduceIte] at this
        rw [this]; rfl
      · simp only [hp, ↓reduceIte]
    · have t2 := tick_mk_close_jump B sz (a + 1 + 1)
        (fun p => if p = mp then wrap_int (M mp - 1) else M p) ms mp inp out a h0 (by omega)
        hb2 (by rw [hcell]; exact_mod_cast hk0) hmo
      rw [tick_n_succ_true _ _ _ t2, ih _ (by omega) (by omega) hcell]
      simp only [tick_result.ret.injEq, bf_state.mk.injEq, true_and, and_true]
      funext p
      by_cases hp : p = mp
      · simp only [hp, ↓reduceIte]
      · simp only [hp, ↓reduceIte]

/-- C15: for `n` below the overflow point of a cell and with the `]` of the
program at an offset below `2^31` (that is `n + 2 < 2^31`: the source keeps
the position of the backward scan in an `int`), the program made of `n`
bytes `+` followed by `[-]`, run on a fresh tape, halts normally after
`3n + 2` calls (the last one returns stop, with the instruction pointer at
the end of the program) with every cell equal to 0, the memory pointer on
cell 0, no output produced and the input untouched. -/
theorem plus_then_clear_run (n : Nat) (hn2 : n + 2 < 2147483648) (heap : Int → Nat)
    (input : List Nat) :
    ∃ s1, run (3 * n + 2)
        (init_interpreter (List.replicate n 43 ++ [91, 45, 93]) heap input) =
        some (.ret false s1) ∧
      (∀ p, s1.mem_buf p = 0) ∧ s1.mem_ptr = 0 ∧ s1.stdout = [] ∧
      s1.exec_ptr = (s1.exec_size : Int) ∧ s1.stdin = input := by
  have hn : n < 2147483648 := by omega
  have hseg := seg_load (List.replicate n 43 ++ [91, 45, 93]) heap
  have hl : (List.replicate n 43 ++ [91, 45, 93]).length = n + 3 := by
    rw [List.length_append, List.length_replicate]; rfl
  have hplus := seg_replicate _ _ _ _ (seg_append_left _ _ _ _ hseg)
  have hloop : seg (load_exec (List.replicate n 43 ++ [91, 45, 93]) heap) (0 + n)
      [91, 45, 93] := by
    have := seg_append_right _ _ _ _ hseg
    rwa [List.length_replicate] at this
  have hopen := seg_cons_head _ _ _ _ hloop
  rw [init_interpreter_mk]
  by_cases hn0 : n = 0
  · subst hn0
    have hm := (clear_loop_matches _ _ hloop).1
    have t1 := tick_mk_open_jump (load_exec (List.replicate 0 43 ++ [91, 45, 93]) heap)
      (List.replicate 0 43 ++ [91, 45, 93]).length 0 (fun _ => 0) MEMORY_SIZE 0 input []
      (0 + 2) (le_refl 0) (by decide) (by simpa using hopen) rfl (by simpa using hm)
      (by decide)
    have t2 := tick_mk_end (load_exec (List.replicate 0 43 ++ [91, 45, 93]) heap)
      (List.replicate 0 43 ++ [91, 45, 93]).length (0 + 2 + 1) (fun _ => 0) MEMORY_SIZE 0
      input [] (by decide)
    exact ⟨_, (run_succ_true 1 _ _ t1).trans (run_succ_false 0 _ _ t2),
      fun _ => rfl, rfl, rfl, rfl, rfl⟩
  · have h1 := tick_n_mk_plus n (load_exec (List.replicate n 43 ++ [91, 45, 93]) heap)
      (List.replicate n 43 ++ [91, 45, 93]).length 0 (fun _ => 0) MEMORY_SIZE 0 input []
      (by decide) hplus (by rw [hl]; push_cast; omega)
    have hcell : (fun p : Int => if p = 0 then wrap_int (0 + (n : Int)) else 0) 0 = (n : Int) := by
      simp only [↓reduceIte]; exact wrap_int_nat n hn
    have h2 := tick_mk_open_nonzero (load_exec (List.replicate n 43 ++ [91, 45, 93]) heap)
      (List.replicate n 43 ++ [91, 45, 93]).length (0 + n)
      (fun p => if p = 0 then wrap_int (0 + n) else 0) MEMORY_SIZE 0 input []
      (by rw [hl]; push_cast; omega) hopen (by rw [hcell]; exact_mod_cast hn0)
    have h3 := clear_loop_run (load_exec (List.replicate n 43 ++ [91, 45, 93]) heap)
      (List.replicate n 43 ++ [91, 45, 93]).length (0 + n) MEMORY_SIZE 0 input [] hloop
      (by omega) (by rw [hl]; push_cast; omega) n
      (fun p => if p = 0 then wrap_int (0 + n) else 0) (by omega) hn hcell
    have h4 := tick_mk_end (load_exec (List.replicate n 43 ++ [91, 45, 93]) heap)
      (List.replicate n 43 ++ [91, 45, 93]).length (0 + n + 3)
      (fun p => if p = 0 then 0 else (fun p => if p = 0 then wrap_int (0 + n) else 0) p)
      MEMORY_SIZE 0 input [] (by rw [hl]; push_cast; omega)
    rw [show 3 * n + 2 = n + (2 * n + 1 + 1) by ring]
    refine ⟨_, (run_of_tick_n n _ _ _ h1).trans ((run_succ_true _ _ _ h2).trans
      ((run_of_tick_n (2 * n) 1 _ _ h3).trans (run_succ_false 0 _ _ h4))),
      fun p => ?_, rfl, rfl, ?_, rfl⟩
    · simp only
      split_ifs <;> rfl
    · simp only [hl]; push_cast; omega

/-- C15 on the program `+[-]`: the run halts after 5 calls with every cell
0 and no output. -/
theorem plus_then_clear_run_witness :
    ∃ s1, run (3 * 1 + 2)
        (init_interpreter (List.replicate 1 43 ++ [91, 45, 93]) (fun _ => 0) []) =
        some (.ret false s1) ∧
      (∀ p, s1.mem_buf p = 0) ∧ s1.mem_ptr = 0 ∧ s1.stdout = [] ∧
      s1.exec_ptr = (s1.exec_size : Int) ∧ s1.stdin = [] :=
  plus_then_clear_run 1 (by decide) (fun _ => 0) []

/-! ## The error check after the forward scan -/

/-- With no byte of the program bringing the counter back to 0, the forward
scan runs to the end of the buffer, reads the byte after it, and stops with
`exec_pos` equal to the program size, whatever that byte is. -/
theorem scan_fwd_unmatched (buf : Int → Nat) (size : Nat) :
    ∀ (k fuel : Nat) (ptr e bc : Int), ptr + k = (size : Int) → e < (size : Int) →
      (∀ m, m < k → bc + depth_fwd buf ptr (m + 1) ≠ 0) → k + 2 ≤ fuel →
      (scan_fwd buf size fuel ptr e bc).2 = (size : Int) := by
  intro k
  induction k with
  | zero =>
    intro fuel ptr e bc hp he _ hf
    obtain ⟨f, rfl⟩ : ∃ f, fuel = f + 1 := ⟨fuel - 1, by omega⟩
    rw [scan_fwd]
    simp only [he, ↓reduceIte]
    split_ifs
    · simp only; push_cast at hp; omega
    · rw [scan_fwd_done _ _ _ _ _ _ (by push_cast at hp; omega)]
      simp only; push_cast at hp; omega
  | succ k ih =>
    intro fuel ptr e bc hp he hne hf
    obtain ⟨f, rfl⟩ : ∃ f, fuel = f + 1 := ⟨fuel - 1, by omega⟩
    have h1 : count_fwd (buf ptr) bc ≠ 0 := by
      have := hne 0 (by omega)
      rw [count_fwd_add]; simpa [depth_fwd] using this
    rw [scan_fwd]
    simp only [he, ↓reduceIte, h1]
    apply ih f (ptr + 1) ptr (count_fwd (buf ptr) bc) (by push_cast at hp; omega)
      (by push_cast at hp; omega) _ (by omega)
    intro m hm
    have := hne (m + 1) (by omega)
    rw [depth_fwd_shift] at this
    have e := count_fwd_add (buf ptr) bc
    omega

/-- The forward scan of `tick_interpreter`, started on a bracket that no
byte of the program matches, ends with `exec_pos` equal to the program size. -/
theorem scan_fwd_unmatched_pos (s : bf_state) (h0 : 0 ≤ s.exec_ptr)
    (hip : s.exec_ptr < (s.exec_size : Int))
    (hun : ∀ m : Nat, s.exec_ptr + m < (s.exec_size : Int) →
      depth_fwd s.exec_buf s.exec_ptr (m + 1) ≠ 0) :
    (scan_fwd s.exec_buf s.exec_size (fwd_fuel s.exec_size s.exec_ptr) s.exec_ptr 1 0).2
      = (s.exec_size : Int) := by
  by_cases h1 : (1 : Int) < (s.exec_size : Int)
  · exact scan_fwd_unmatched s.exec_buf s.exec_size ((s.exec_size : Int) - s.exec_ptr).toNat
      _ s.exec_ptr 1 0 (by omega) h1
      (fun m hm => by simpa using hun m (by omega)) (by unfold fwd_fuel; omega)
  · rw [scan_fwd_done _ _ _ _ _ _ h1]
    simp only; omega

/-- A `[` inside the program either has its match inside the program, or no
byte of the program brings the forward depth back to 0. -/
theorem open_match_dichotomy (buf : Int → Nat) (size : Nat) (i : Int) (hc : buf i = 91) :
    (∃ j, j < (size : Int) ∧ matches_close buf i j) ∨
    (∀ m : Nat, i + m < (size : Int) → depth_fwd buf i (m + 1) ≠ 0) := by
  by_cases h : ∃ m : Nat, i + m < (size : Int) ∧ depth_fwd buf i (m + 1) = 0
  · left
    have hmin : ∀ m, m < Nat.find h →
        ¬ (i + (m : Int) < (size : Int) ∧ depth_fwd buf i (m + 1) = 0) :=
      fun m hm => Nat.find_min h hm
    obtain ⟨hlt, hz⟩ := Nat.find_spec h
    generalize Nat.find h = m0 at hmin hlt hz
    have hne : ∀ n, n < m0 → depth_fwd buf i (n + 1) ≠ 0 := fun n hn hd =>
      hmin n hn ⟨by omega, hd⟩
    have hpos := depth_fwd_pos buf i m0 hc hne
    have hm0 : m0 ≠ 0 := by
      rintro rfl
      simp [depth_fwd, count_fwd, hc] at hz
    have hprev := hpos (m0 - 1) (by omega)
    rw [show m0 - 1 + 1 = m0 by omega] at hprev
    have hj : buf (i + m0) = 93 := by
      rw [depth_fwd] at hz
      unfold count_fwd at hz
      split_ifs at hz with h91 h93
      · omega
      · exact h93
      · omega
    have hL : (i + (m0 : Int) - i).toNat = m0 := by simp
    exact ⟨i + m0, hlt, by omega, hj, by rw [hL]; exact hz, by rw [hL]; exact hne⟩
  · right
    intro m hm hd
    exact h ⟨m, hm, hd⟩

theorem matched_not_unmatched (buf : Int → Nat) (size : Nat) (i j : Int)
    (hj : j < (size : Int)) (hm : matches_close buf i j)
    (hun : ∀ m : Nat, i + m < (size : Int) → depth_fwd buf i (m + 1) ≠ 0) : False := by
  obtain ⟨hij, -, hd, -⟩ := hm
  exact hun (j - i).toNat (by omega) hd

/-- C17: the error check after the forward scan compares with the tape
capacity. With the tape capacity at 30000, a `[` inside the program on a zero
cell makes the process exit with `unmatched '['` exactly when the scan
stopped with `exec_pos = 30000`, that is, exactly when either the
depth-matched `]` of the program sits at offset 30000, or the program has no
matching `]` and its length is exactly 30000. In every other case the step
returns continue, matched or not. -/
theorem forward_check_uses_capacity (s : bf_state) (h0 : 0 ≤ s.exec_ptr)
    (hip : s.exec_ptr < (s.exec_size : Int)) (hc : s.exec_buf s.exec_ptr = 91)
    (hz : cur_cell s = 0) (hms : s.mem_size = MEMORY_SIZE) :
    ((∃ s1, tick_interpreter s = .exited 2 .unmatched_open s1) ↔
      (scan_fwd s.exec_buf s.exec_size (fwd_fuel s.exec_size s.exec_ptr)
        s.exec_ptr 1 0).2 = 30000) ∧
    ((∃ s1, tick_interpreter s = .exited 2 .unmatched_open s1) ↔
      ((∃ j, j < (s.exec_size : Int) ∧ matches_close s.exec_buf s.exec_ptr j ∧ j = 30000) ∨
       ((∀ j, j < (s.exec_size : Int) → ¬ matches_close s.exec_buf s.exec_ptr j) ∧
          s.exec_size = 30000))) ∧
    ((¬ ∃ s1, tick_interpreter s = .exited 2 .unmatched_open s1) →
      ∃ p, tick_interpreter s = .ret true { s with exec_ptr := p + 1 }) := by
  have hcap : (s.mem_size : Int) = 30000 := by rw [hms]; rfl
  have ht := tick_open s (not_le.mpr hip) hc
  rw [if_neg (not_not.mpr hz), hcap] at ht
  have hA : (∃ s1, tick_interpreter s = .exited 2 .unmatched_open s1) ↔
      (scan_fwd s.exec_buf s.exec_size (fwd_fuel s.exec_size s.exec_ptr)
        s.exec_ptr 1 0).2 = 30000 := by
    rw [ht]
    split_ifs with h
    · exact ⟨fun _ => h, fun _ => ⟨_, rfl⟩⟩
    · exact ⟨fun ⟨s1, e⟩ => by simp [advance] at e, fun e => absurd e h⟩
  refine ⟨hA, ?_, ?_⟩
  · rw [hA]
    rcases open_match_dichotomy s.exec_buf s.exec_size s.exec_ptr hc with
      ⟨j, hj, hm⟩ | hun
    · rw [scan_fwd_matched s j h0 hj hm]
      constructor
      · intro e
        exact Or.inl ⟨j, hj, hm, e⟩
      · rintro (⟨j1, hj1, hm1, e1⟩ | ⟨hno, -⟩)
        · have hr := scan_fwd_matched s j1 h0 hj1 hm1
          rw [scan_fwd_matched s j h0 hj hm] at hr
          simp only [Prod.mk.injEq, and_self] at hr
          rw [hr]; exact e1
        · exact absurd hm (hno j hj)
    · rw [scan_fwd_unmatched_pos s h0 hip hun]
      constructor
      · intro e
        exact Or.inr ⟨fun j hj hm => matched_not_unmatched _ _ _ _ hj hm hun,
          by exact_mod_cast e⟩
      · rintro (⟨j1, hj1, hm1, -⟩ | ⟨-, e⟩)
        · exact (matched_not_unmatched _ _ _ _ hj1 hm1 hun).elim
        · exact_mod_cast e
  · intro hne
    rw [hA] at hne
    rw [ht, if_neg hne]
    exact ⟨_, rfl⟩

theorem open_then_blanks_length : open_then_blanks.length = 30000 := by
  unfold open_then_blanks
  rw [List.length_cons, List.length_replicate]

theorem open_then_blanks_unmatched (heap : Int → Nat) :
    ∀ j, j < (30000 : Int) → ¬ matches_close (load_exec open_then_blanks heap) 0 j := by
  intro j hj hm
  have hseg := seg_load open_then_blanks heap
  unfold open_then_blanks at hseg
  have h91 := seg_cons_head _ _ _ _ hseg
  have hbl := seg_replicate _ _ _ _ (seg_cons_tail _ _ _ _ hseg)
  obtain ⟨hij, -, hd, -⟩ := hm
  obtain ⟨L, hL⟩ : ∃ L : Nat, (j - 0).toNat = L + 1 := ⟨(j - 0).toNat - 1, by omega⟩
  rw [hL, depth_fwd_shift] at hd
  unfold open_then_blanks at hd
  rw [h91, depth_fwd_plain _ _ _ (fun k hk => by
    rw [hbl k (by omega)]; exact ⟨by decide, by decide⟩)] at hd
  simp [count_fwd] at hd

/-- C17 on `open_then_blanks`, a program of exactly 30000 bytes whose `[`
has no match: the first step on a fresh tape exits with `unmatched '['`. -/
theorem forward_check_uses_capacity_witness :
    ∃ s1, tick_interpreter (init_interpreter open_then_blanks (fun _ => 0) []) =
      .exited 2 .unmatched_open s1 :=
  (forward_check_uses_capacity (init_interpreter open_then_blanks (fun _ => 0) [])
    (le_refl 0)
    (by simp only [init_interpreter]; rw [open_then_blanks_length]; decide)
    (seg_cons_head _ _ _ _ (seg_load open_then_blanks (fun _ => 0)))
    rfl rfl).2.1.mpr
    (Or.inr ⟨fun j hj => open_then_blanks_unmatched _ j (by
        simp only [init_interpreter] at hj
        rw [open_then_blanks_length] at hj
        exact hj),
      open_then_blanks_length⟩)

/-! ## The interpreter against the reference semantics -/

theorem count_fwd_plain (c : Nat) (h1 : c ≠ 91) (h2 : c ≠ 93) (bc : Int) :
    count_fwd c bc = bc := by
  simp [count_fwd, h1, h2]

/-- The bytes of a well-formed structured program are balanced: scanning
them from their start, the depth never goes below 0 and is 0 at the end. -/
theorem flatten_depth (q : bf_prog) (hwf : well_formed q) :
    ∀ (buf : Int → Nat) (a : Int), seg buf a (flatten q) →
      (∀ n, n ≤ (flatten q).length → 0 ≤ depth_fwd buf a n) ∧
      depth_fwd buf a (flatten q).length = 0 := by
  induction q with
  | done =>
    intro buf a _
    refine ⟨fun n hn => ?_, rfl⟩
    simp only [flatten, List.length_nil, Nat.le_zero] at hn
    subst hn; exact le_refl 0
  | cmd c rest ih =>
    intro buf a hseg
    obtain ⟨h1, h2, hr⟩ := hwf
    have hc : buf a = c := seg_cons_head _ _ _ _ hseg
    obtain ⟨ihn, ih0⟩ := ih hr buf (a + 1) (seg_cons_tail _ _ _ _ hseg)
    have hstep : ∀ n, depth_fwd buf a (n + 1) = depth_fwd buf (a + 1) n := by
      intro n
      rw [depth_fwd_shift, hc, count_fwd_plain c h1 h2]; ring
    refine ⟨fun n hn => ?_, ?_⟩
    · cases n with
      | zero => exact le_refl 0
      | succ n =>
        rw [hstep]
        exact ihn n (by simp only [flatten, List.length_cons] at hn; omega)
    · simp only [flatten, List.length_cons]
      rw [hstep]; exact ih0
  | loop body rest ihb ihr =>
    intro buf a hseg
    obtain ⟨hb, hr⟩ := hwf
    have h91 : buf a = 91 := seg_cons_head _ _ _ _ hseg
    have hs1 : seg buf (a + 1) (flatten body ++ 93 :: flatten rest) :=
      seg_cons_tail _ _ _ _ hseg
    have hsb : seg buf (a + 1) (flatten body) := seg_append_left _ _ _ _ hs1
    have hs2 := seg_append_right _ _ _ _ hs1
    have h93 : buf (a + 1 + (flatten body).length) = 93 := seg_cons_head _ _ _ _ hs2
    have hsr := seg_cons_tail _ _ _ _ hs2
    obtain ⟨ibn, ib0⟩ := ihb hb buf (a + 1) hsb
    obtain ⟨irn, ir0⟩ := ihr hr buf _ hsr
    have hstep : ∀ n, depth_fwd buf a (n + 1) = 1 + depth_fwd buf (a + 1) n := by
      intro n
      rw [depth_fwd_shift, h91]; rfl
    have hafter : ∀ k, depth_fwd buf (a + 1) ((flatten body).length + (1 + k)) =
        -1 + depth_fwd buf (a + 1 + (flatten body).length + 1) k := by
      intro k
      rw [depth_fwd_add, ib0, Nat.add_comm 1 k, depth_fwd_shift, h93]
      simp [count_fwd]
    have hlen : (flatten (.loop body rest)).length =
        (flatten body).length + (1 + (flatten rest).length) + 1 := by
      simp only [flatten, List.length_cons, List.length_append]; omega
    refine ⟨fun n hn => ?_, ?_⟩
    · cases n with
      | zero => exact le_refl 0
      | succ n =>
        rw [hstep]
        by_cases hnb : n ≤ (flatten body).length
        · have := ibn n hnb; omega
        · obtain ⟨k, rfl⟩ : ∃ k, n = (flatten body).length + (1 + k) :=
            ⟨n - (flatten body).length - 1, by omega⟩
          rw [hafter]
          have := irn k (by rw [hlen] at hn; omega)
          omega
    · rw [hlen, hstep, hafter, ir0]; rfl

/-- In the bytes of a well-formed loop, the `[` and the `]` around the body
match each other. -/
theorem loop_matches (body rest : bf_prog) (hb : well_formed body) (buf : Int → Nat)
    (a : Int) (hseg : seg buf a (flatten (.loop body rest))) :
    matches_close buf a (a + 1 + (flatten body).length) ∧
    matches_open buf (a + 1 + (flatten body).length) a := by
  have h91 : buf a = 91 := seg_cons_head _ _ _ _ hseg
  have hs1 : seg buf (a + 1) (flatten body ++ 93 :: flatten rest) :=
    seg_cons_tail _ _ _ _ hseg
  have hsb : seg buf (a + 1) (flatten body) := seg_append_left _ _ _ _ hs1
  have h93 : buf (a + 1 + (flatten body).length) = 93 :=
    seg_cons_head _ _ _ _ (seg_append_right _ _ _ _ hs1)
  obtain ⟨ibn, ib0⟩ := flatten_depth body hb buf (a + 1) hsb
  have hstep : ∀ n, depth_fwd buf a (n + 1) = 1 + depth_fwd buf (a + 1) n := by
    intro n
    rw [depth_fwd_shift, h91]; rfl
  have hL : (a + 1 + ((flatten body).length : Int) - a).toNat = (flatten body).length + 1 := by
    omega
  have hc : matches_close buf a (a + 1 + (flatten body).length) := by
    refine ⟨by omega, h93, ?_, ?_⟩
    · rw [hL, hstep, depth_fwd, ib0, h93]
      simp [count_fwd]
    · rw [hL]
      intro n hn
      rw [hstep]
      have := ibn n (by omega)
      omega
  exact ⟨hc, matches_close_symm _ _ _ h91 hc⟩

theorem on_prog_tick (B : Int → Nat) (sz ms : Nat) (s s1 : bf_state) (b : Bool)
    (h : tick_interpreter s = .ret b s1) (hp : on_prog B sz ms s) : on_prog B sz ms s1 := by
  obtain ⟨h1, h2, h3, -⟩ := tick_ret_frame s s1 b h
  obtain ⟨p1, p2, p3⟩ := hp
  exact ⟨h1.trans p1, h2.trans p2, h3.trans p3⟩

theorem tick_mk_right (B : Int → Nat) (n : Nat) (ip : Int) (M : Int → Int) (ms : Nat)
    (mp : Int) (inp out : List Nat) (h : ip < (n : Int)) (hc : B ip = 62) :
    tick_interpreter ⟨B, n, ip, M, ms, mp, inp, out⟩ =
      if (ms : Int) ≤ mp + 1 then .exited 2 .oob_right ⟨B, n, ip, M, ms, mp, inp, out⟩
      else .ret true ⟨B, n, ip + 1, M, ms, mp + 1, inp, out⟩ :=
  tick_right _ (not_le.mpr h) hc

theorem tick_mk_left (B : Int → Nat) (n : Nat) (ip : Int) (M : Int → Int) (ms : Nat)
    (mp : Int) (inp out : List Nat) (h : ip < (n : Int)) (hc : B ip = 60) :
    tick_interpreter ⟨B, n, ip, M, ms, mp, inp, out⟩ =
      if mp = 0 then .exited 2 .oob_left ⟨B, n, ip, M, ms, mp, inp, out⟩
      else .ret true ⟨B, n, ip + 1, M, ms, mp - 1, inp, out⟩ :=
  tick_left _ (not_le.mpr h) hc

theorem tick_mk_other (B : Int → Nat) (n : Nat) (ip : Int) (M : Int → Int) (ms : Nat)
    (mp : Int) (inp out : List Nat) (h : ip < (n : Int)) (hc : ¬ is_command (B ip)) :
    tick_interpreter ⟨B, n, ip, M, ms, mp, inp, out⟩ =
      .ret true ⟨B, n, ip + 1, M, ms, mp, inp, out⟩ :=
  tick_other _ (not_le.mpr h) hc

/-- One non-bracket byte: the step of the interpreter does what the
reference semantics says for that byte. -/
theorem step_cmd (s : bf_state) (m : ref_state) (c : Nat) (hsim : sim s m)
    (h91 : c ≠ 91) (h93 : c ≠ 93) (hip : s.exec_ptr < (s.exec_size : Int))
    (hc : s.exec_buf s.exec_ptr = c) :
    (∀ m1, ref_cmd c m = .ok m1 →
      ∃ s1, tick_interpreter s = .ret true s1 ∧ s1.exec_ptr = s.exec_ptr + 1 ∧ sim s1 m1) ∧
    (∀ e m1, ref_cmd c m = .fault e m1 →
      tick_interpreter s = .exited 2 e s ∧ sim s m1 ∧ (e = .oob_right ∨ e = .oob_left)) := by
  obtain ⟨B, sz, ip, M, ms, mp, inp, out⟩ := s
  obtain ⟨T, cap, p, i, o⟩ := m
  simp only [sim] at hsim
  obtain ⟨rfl, rfl, rfl, rfl, rfl⟩ := hsim
  simp only at hip hc
  by_cases h43 : c = 43
  · subst h43
    refine ⟨fun m1 hm1 => ?_, fun e m1 hm1 => ?_⟩
    · simp only [ref_cmd, ↓reduceIte, ref_result.ok.injEq] at hm1
      subst hm1
      exact ⟨_, tick_mk_plus _ _ _ _ _ _ _ _ hip hc, rfl, rfl, rfl, rfl, rfl, rfl⟩
    · simp [ref_cmd] at hm1
  by_cases h45 : c = 45
  · subst h45
    refine ⟨fun m1 hm1 => ?_, fun e m1 hm1 => ?_⟩
    · simp only [ref_cmd, ↓reduceIte, Nat.reduceEqDiff, ref_result.ok.injEq] at hm1
      subst hm1
      exact ⟨_, tick_mk_minus _ _ _ _ _ _ _ _ hip hc, rfl, rfl, rfl, rfl, rfl, rfl⟩
    · simp [ref_cmd] at hm1
  by_cases h62 : c = 62
  · subst h62
    have ht := tick_mk_right B sz ip M ms mp inp out hip hc
    by_cases hm : (ms : Int) ≤ mp + 1
    · rw [if_pos hm] at ht
      refine ⟨fun m1 hm1 => ?_, fun e m1 hm1 => ?_⟩
      · simp [ref_cmd, hm] at hm1
      · simp only [ref_cmd, ↓reduceIte, Nat.reduceEqDiff, hm, ref_result.fault.injEq] at hm1
        obtain ⟨rfl, rfl⟩ := hm1
        exact ⟨ht, ⟨rfl, rfl, rfl, rfl, rfl⟩, Or.inl rfl⟩
    · rw [if_neg hm] at ht
      refine ⟨fun m1 hm1 => ?_, fun e m1 hm1 => ?_⟩
      · simp only [ref_cmd, ↓reduceIte, Nat.reduceEqDiff, hm, ref_result.ok.injEq] at hm1
        subst hm1
        exact ⟨_, ht, rfl, rfl, rfl, rfl, rfl, rfl⟩
      · simp [ref_cmd, hm] at hm1
  by_cases h60 : c = 60
  · subst h60
    have ht := tick_mk_left B sz ip M ms mp inp out hip hc
    by_cases hm : mp = 0
    · rw [if_pos hm] at ht
      refine ⟨fun m1 hm1 => ?_, fun e m1 hm1 => ?_⟩
      · simp [ref_cmd, hm] at hm1
      · simp only [ref_cmd, ↓reduceIte, Nat.reduceEqDiff, hm, ref_result.fault.injEq] at hm1
        obtain ⟨rfl, rfl⟩ := hm1
        exact ⟨ht, ⟨rfl, hm, rfl, rfl, rfl⟩, Or.inr rfl⟩
    · rw [if_neg hm] at ht
      refine ⟨fun m1 hm1 => ?_, fun e m1 hm1 => ?_⟩
      · simp only [ref_cmd, ↓reduceIte, Nat.reduceEqDiff, hm, ref_result.ok.injEq] at hm1
        subst hm1
        exact ⟨_, ht, rfl, rfl, rfl, rfl, rfl, rfl⟩
      · simp [ref_cmd, hm] at hm1
  by_cases h46 : c = 46
  · subst h46
    refine ⟨fun m1 hm1 => ?_, fun e m1 hm1 => ?_⟩
    · simp only [ref_cmd, ↓reduceIte, Nat.reduceEqDiff, ref_result.ok.injEq] at hm1
      subst hm1
      exact ⟨_, tick_mk_dot _ _ _ _ _ _ _ _ hip hc, rfl, rfl, rfl, rfl, rfl, rfl⟩
    · simp [ref_cmd] at hm1
  by_cases h44 : c = 44
  · subst h44
    refine ⟨fun m1 hm1 => ?_, fun e m1 hm1 => ?_⟩
    · simp only [ref_cmd, ↓reduceIte, Nat.reduceEqDiff, ref_result.ok.injEq] at hm1
      subst hm1
      exact ⟨_, tick_mk_comma _ _ _ _ _ _ _ _ hip hc, rfl, rfl, rfl, rfl, rfl, rfl⟩
    · simp [ref_cmd] at hm1
  · have hnc : ¬ is_command (B ip) := by
      rw [hc]; unfold is_command; tauto
    refine ⟨fun m1 hm1 => ?_, fun e m1 hm1 => ?_⟩
    · simp only [ref_cmd, h43, h45, h62, h60, h46, h44, ↓reduceIte, ref_result.ok.injEq] at hm1
      subst hm1
      exact ⟨_, tick_mk_other _ _ _ _ _ _ _ _ hip hnc, rfl, rfl, rfl, rfl, rfl, rfl⟩
    · simp [ref_cmd, h43, h45, h62, h60, h46, h44] at hm1

theorem sim_prepend (B : Int → Nat) (sz ms f : Nat) (s s1 : bf_state) (endp : Int)
    (r : Option ref_result) (ht : tick_interpreter s = .ret true s1)
    (h : sim_outcome B sz ms f s1 endp r) : sim_outcome B sz ms (f + 1) s endp r := by
  rcases r with _ | ⟨m1 | ⟨e, m1⟩⟩
  · obtain ⟨k, s2, hk, htk⟩ := h
    exact ⟨k + 1, s2, by omega, (tick_n_succ_true k s s1 ht).trans htk⟩
  · obtain ⟨k, s2, htk, h2⟩ := h
    exact ⟨k + 1, s2, (tick_n_succ_true k s s1 ht).trans htk, h2⟩
  · obtain ⟨k, s2, htk, h2⟩ := h
    exact ⟨k + 1, s2, (tick_n_succ_true k s s1 ht).trans htk, h2⟩

theorem sim_seq (B : Int → Nat) (sz ms f k1 : Nat) (s s1 : bf_state) (endp : Int)
    (r : Option ref_result) (ht : tick_n k1 s = .ret true s1)
    (h : sim_outcome B sz ms f s1 endp r) : sim_outcome B sz ms f s endp r := by
  rcases r with _ | ⟨m1 | ⟨e, m1⟩⟩
  · obtain ⟨k, s2, hk, htk⟩ := h
    exact ⟨k1 + k, s2, by omega, (tick_n_add k1 k s s1 ht).trans htk⟩
  · obtain ⟨k, s2, htk, h2⟩ := h
    exact ⟨k1 + k, s2, (tick_n_add k1 k s s1 ht).trans htk, h2⟩
  · obtain ⟨k, s2, htk, h2⟩ := h
    exact ⟨k1 + k, s2, (tick_n_add k1 k s s1 ht).trans htk, h2⟩

theorem sim_cur_cell (s : bf_state) (m : ref_state) (h : sim s m) :
    cur_cell s = m.tape m.ptr := by
  obtain ⟨h1, h2, -⟩ := h
  rw [cur_cell, h1, h2]

theorem sim_moved (s : bf_state) (m : ref_state) (x : Int) (h : sim s m) :
    sim { s with exec_ptr := x } m := h

/-- The pieces of the bytes of a loop. -/
theorem seg_loop_parts (B : Int → Nat) (a : Int) (body rest : bf_prog)
    (hseg : seg B a (flatten (.loop body rest))) :
    B a = 91 ∧ seg B (a + 1) (flatten body) ∧ B (a + 1 + (flatten body).length) = 93 ∧
      seg B (a + 1 + (flatten body).length + 1) (flatten rest) := by
  have hs1 : seg B (a + 1) (flatten body ++ 93 :: flatten rest) :=
    seg_cons_tail _ _ _ _ hseg
  have hs2 := seg_append_right _ _ _ _ hs1
  exact ⟨seg_cons_head _ _ _ _ hseg, seg_append_left _ _ _ _ hs1,
    seg_cons_head _ _ _ _ hs2, seg_cons_tail _ _ _ _ hs2⟩

theorem flatten_loop_length (body rest : bf_prog) :
    ((flatten (.loop body rest)).length : Int) =
      1 + (flatten body).length + 1 + (flatten rest).length := by
  simp only [flatten, List.length_cons, List.length_append]
  push_cast; ring

/-- The body of a loop followed by the next test of the loop, once the
interpreter is on the first byte of the body with a nonzero current cell. -/
theorem sim_body_then_loop (B : Int → Nat) (sz ms f : Nat) (body rest : bf_prog) (a endp : Int)
    (ihA : ∀ m s, on_prog B sz ms s → s.exec_ptr = a + 1 → sim s m →
      sim_outcome B sz ms f s (a + 1 + (flatten body).length) (ref_exec f body m))
    (ihB : ∀ m s, on_prog B sz ms s → s.exec_ptr = a + 1 + (flatten body).length → sim s m →
      sim_outcome B sz ms f s endp (ref_exec f (.loop body rest) m))
    (m : ref_state) (s : bf_state) (hp : on_prog B sz ms s) (hip : s.exec_ptr = a + 1)
    (hsim : sim s m) (hz : m.tape m.ptr ≠ 0) :
    sim_outcome B sz ms f s endp (ref_exec (f + 1) (.loop body rest) m) := by
  have hA := ihA m s hp hip hsim
  rw [ref_exec, if_neg hz]
  cases hb : ref_exec f body m with
  | none =>
    rw [hb] at hA
    exact hA
  | some r =>
    cases r with
    | ok m1 =>
      rw [hb] at hA
      obtain ⟨k1, s1, htk, hip1, hsim1, hp1⟩ := hA
      exact sim_seq B sz ms f k1 s s1 endp _ htk (ihB m1 s1 hp1 hip1 hsim1)
    | fault e m1 =>
      rw [hb] at hA
      exact hA

/-- The simulation: on a program no longer than the tape capacity, the
interpreter placed at the start of a well-formed piece of the program (first
part), or on the `]` of a well-formed loop (second part), in a state that
matches the reference machine, does what the reference run of that piece
does. -/
theorem sim_exec (B : Int → Nat) (sz ms : Nat) (hcap : sz ≤ ms) : ∀ fuel : Nat,
    (∀ (q : bf_prog) (m : ref_state) (s : bf_state) (a : Int), well_formed q →
      seg B a (flatten q) → on_prog B sz ms s → s.exec_ptr = a → 0 ≤ a →
      a + (flatten q).length ≤ (sz : Int) → sim s m →
      sim_outcome B sz ms fuel s (a + (flatten q).length) (ref_exec fuel q m)) ∧
    (∀ (body rest : bf_prog) (m : ref_state) (s : bf_state) (a : Int),
      well_formed body → well_formed rest →
      seg B a (flatten (.loop body rest)) → on_prog B sz ms s →
      s.exec_ptr = a + 1 + (flatten body).length → 0 ≤ a →
      a + (flatten (.loop body rest)).length ≤ (sz : Int) → sim s m →
      sim_outcome B sz ms fuel s (a + (flatten (.loop body rest)).length)
        (ref_exec fuel (.loop body rest) m)) := by
  intro fuel
  induction fuel with
  | zero =>
    refine ⟨fun q m s a _ _ _ _ _ _ _ => ?_, fun body rest m s a _ _ _ _ _ _ _ _ => ?_⟩
    · rw [ref_exec]; exact ⟨0, s, le_refl 0, rfl⟩
    · rw [ref_exec]; exact ⟨0, s, le_refl 0, rfl⟩
  | succ f ih =>
    obtain ⟨ihA, ihB⟩ := ih
    -- what both parts need about a loop
    have loop_facts : ∀ (body rest : bf_prog) (a : Int) (s : bf_state),
        well_formed body → seg B a (flatten (.loop body rest)) → on_prog B sz ms s →
        0 ≤ a → a + (flatten (.loop body rest)).length ≤ (sz : Int) →
        s.exec_buf a = 91 ∧ s.exec_buf (a + 1 + (flatten body).length) = 93 ∧
        matches_close s.exec_buf a (a + 1 + (flatten body).length) ∧
        matches_open s.exec_buf (a + 1 + (flatten body).length) a ∧
        a + 1 + ((flatten body).length : Int) < (s.exec_size : Int) ∧
        a + 1 + ((flatten body).length : Int) ≠ (s.mem_size : Int) ∧
        a + 1 + ((flatten body).length : Int) + 1 + ((flatten rest).length : Int) =
          a + ((flatten (.loop body rest)).length : Int) := by
      intro body rest a s hwb hseg hp h0 hlen
      obtain ⟨p1, p2, p3⟩ := hp
      obtain ⟨h91, -, h93, -⟩ := seg_loop_parts B a body rest hseg
      obtain ⟨hmc, hmo⟩ := loop_matches body rest hwb B a hseg
      have hl := flatten_loop_length body rest
      rw [p1, p2, p3]
      refine ⟨h91, h93, hmc, hmo, by omega, ?_, by omega⟩
      have : (sz : Int) ≤ (ms : Int) := by exact_mod_cast hcap
      omega
    -- the rest of the program after a loop
    have after_loop : ∀ (body rest : bf_prog) (a : Int) (m : ref_state) (s : bf_state),
        well_formed rest → seg B a (flatten (.loop body rest)) → on_prog B sz ms s →
        s.exec_ptr = a + 1 + (flatten body).length + 1 → 0 ≤ a →
        a + (flatten (.loop body rest)).length ≤ (sz : Int) → sim s m →
        sim_outcome B sz ms f s (a + (flatten (.loop body rest)).length)
          (ref_exec f rest m) := by
      intro body rest a m s hwr hseg hp hip h0 hlen hsim
      obtain ⟨-, -, -, hsr⟩ := seg_loop_parts B a body rest hseg
      have hl := flatten_loop_length body rest
      have := ihA rest m s _ hwr hsr hp hip (by omega) (by omega) hsim
      rwa [show a + 1 + ((flatten body).length : Int) + 1 + ((flatten rest).length : Int) =
        a + ((flatten (.loop body rest)).length : Int) by omega] at this
    -- the body and the next test of the loop
    have in_loop : ∀ (body rest : bf_prog) (a : Int) (m : ref_state) (s : bf_state),
        well_formed body → well_formed rest → seg B a (flatten (.loop body rest)) →
        on_prog B sz ms s → s.exec_ptr = a + 1 → 0 ≤ a →
        a + (flatten (.loop body rest)).length ≤ (sz : Int) → sim s m → m.tape m.ptr ≠ 0 →
        sim_outcome B sz ms f s (a + (flatten (.loop body rest)).length)
          (ref_exec (f + 1) (.loop body rest) m) := by
      intro body rest a m s hwb hwr hseg hp hip h0 hlen hsim hz
      obtain ⟨-, hsb, -, -⟩ := seg_loop_parts B a body rest hseg
      have hl := flatten_loop_length body rest
      exact sim_body_then_loop B sz ms f body rest a _
        (fun m1 s1 hp1 hip1 hsim1 =>
          ihA body m1 s1 (a + 1) hwb hsb hp1 hip1 (by omega) (by omega) hsim1)
        (fun m1 s1 hp1 hip1 hsim1 =>
          ihB body rest m1 s1 a hwb hwr hseg hp1 hip1 h0 hlen hsim1)
        m s hp hip hsim hz
    refine ⟨fun q m s a hwf hseg hp hip h0 hlen hsim => ?_,
      fun body rest m s a hwb hwr hseg hp hip h0 hlen hsim => ?_⟩
    · cases q with
      | done =>
        rw [ref_exec]
        exact ⟨0, s, rfl, by simp [flatten, hip], hsim, hp⟩
      | cmd c rest =>
        obtain ⟨h91, h93, hwr⟩ := hwf
        have hc : s.exec_buf s.exec_ptr = c := by
          rw [hp.1, hip]; exact seg_cons_head _ _ _ _ hseg
        have hl : ((flatten (.cmd c rest)).length : Int) = 1 + (flatten rest).length := by
          simp only [flatten, List.length_cons]; push_cast; ring
        have hlt : s.exec_ptr < (s.exec_size : Int) := by
          rw [hp.2.1, hip]
          have := Int.natCast_nonneg (flatten rest).length
          omega
        obtain ⟨hok, hfault⟩ := step_cmd s m c hsim h91 h93 hlt hc
        rw [ref_exec]
        cases hr : ref_cmd c m with
        | ok m1 =>
          obtain ⟨s1, ht, hip1, hsim1⟩ := hok m1 hr
          have hp1 := on_prog_tick B sz ms s s1 true ht hp
          have := ihA rest m1 s1 (a + 1) hwr (seg_cons_tail _ _ _ _ hseg) hp1
            (by rw [hip1, hip]) (by omega) (by omega) hsim1
          rw [show a + 1 + ((flatten rest).length : Int) =
            a + ((flatten (.cmd c rest)).length : Int) by omega] at this
          exact sim_prepend B sz ms f s s1 _ _ ht this
        | fault e m1 =>
          obtain ⟨ht, hsim1, he⟩ := hfault e m1 hr
          exact ⟨1, s, tick_n_succ_exited 0 s s 2 e ht, hsim1, he⟩
      | loop body rest =>
        obtain ⟨hwb, hwr⟩ := hwf
        obtain ⟨h91, h93, hmc, hmo, hjlt, hjne, hend⟩ :=
          loop_facts body rest a s hwb hseg hp h0 hlen
        have hcell := sim_cur_cell s m hsim
        have hlt : s.exec_ptr < (s.exec_size : Int) := by
          rw [hip]
          have := Int.natCast_nonneg (flatten body).length
          omega
        by_cases hz : m.tape m.ptr = 0
        · have ht := tick_open_jump s (a + 1 + (flatten body).length) (by rw [hip]; exact h0)
            hjlt (by rw [hip]; exact h91) (by rw [hcell]; exact hz)
            (by rw [hip]; exact hmc) hjne
          have hp1 := on_prog_tick B sz ms s _ true ht hp
          rw [ref_exec, if_pos hz]
          exact sim_prepend B sz ms f s _ _ _ ht
            (after_loop body rest a m _ hwr hseg hp1 rfl h0 hlen (sim_moved s m _ hsim))
        · have ht := tick_open_nonzero s hlt (by rw [hip]; exact h91)
            (by rw [hcell]; exact hz)
          have hp1 := on_prog_tick B sz ms s _ true ht hp
          exact sim_prepend B sz ms f s _ _ _ ht
            (in_loop body rest a m _ hwb hwr hseg hp1 (by rw [hip]) h0 hlen
              (sim_moved s m _ hsim) hz)
    · obtain ⟨h91, h93, hmc, hmo, hjlt, hjne, hend⟩ :=
        loop_facts body rest a s hwb hseg hp h0 hlen
      have hcell := sim_cur_cell s m hsim
      have hlt : s.exec_ptr < (s.exec_size : Int) := by rw [hip]; exact hjlt
      by_cases hz : m.tape m.ptr = 0
      · have ht := tick_close_zero s hlt (by rw [hip]; exact h93) (by rw [hcell]; exact hz)
        have hp1 := on_prog_tick B sz ms s _ true ht hp
        rw [ref_exec, if_pos hz]
        exact sim_prepend B sz ms f s _ _ _ ht
          (after_loop body rest a m _ hwr hseg hp1 (by rw [hip]) h0 hlen
            (sim_moved s m _ hsim))
      · have ht := tick_close_jump s a h0 hlt (by rw [hip]; exact h93)
          (by rw [hcell]; exact hz) (by rw [hip]; exact hmo)
        have hp1 := on_prog_tick B sz ms s _ true ht hp
        exact sim_prepend B sz ms f s _ _ _ ht
          (in_loop body rest a m _ hwb hwr hseg hp1 rfl h0 hlen (sim_moved s m _ hsim) hz)

theorem run_mono (K : Nat) : ∀ (s : bf_state) (r : tick_result), run K s = some r →
    ∀ k, K ≤ k → run k s = some r := by
  induction K with
  | zero => intro s r h; simp [run] at h
  | succ K ih =>
    intro s r h k hk
    obtain ⟨k1, rfl⟩ : ∃ k1, k = k1 + 1 := ⟨k - 1, by omega⟩
    cases ht : tick_interpreter s with
    | ret b s1 =>
      cases b with
      | true =>
        rw [run_succ_true _ _ _ ht] at h ⊢
        exact ih s1 r h k1 (by omega)
      | false =>
        rw [run_succ_false _ _ _ ht] at h ⊢
        exact h
    | exited c e s1 =>
      rw [run_succ_exited _ _ _ _ _ ht] at h ⊢
      exact h

theorem run_none_of_tick_n (k : Nat) (s s1 : bf_state) (h : tick_n k s = .ret true s1) :
    run k s = none := by
  have := run_of_tick_n k 0 s s1 h
  rwa [Nat.add_zero] at this

/-- A reference run that ends is matched by a run of the interpreter that
ends the same way. -/
theorem outcome_gives_run (B : Int → Nat) (sz ms fuel : Nat) (s0 : bf_state) (r : ref_result)
    (h : sim_outcome B sz ms fuel s0 (sz : Int) (some r)) :
    ∃ k r1, run k s0 = some r1 ∧ agrees r1 r ∧
      ∀ c e s1, r1 = .exited c e s1 → e = .oob_right ∨ e = .oob_left := by
  cases r with
  | ok m1 =>
    obtain ⟨k, s1, htk, hip1, hsim1, hp1⟩ := h
    have hend : tick_interpreter s1 = .ret false s1 :=
      tick_at_end s1 (by rw [hp1.2.1, hip1])
    refine ⟨k + 1, .ret false s1, ?_, hsim1, fun c e s2 h2 => by simp at h2⟩
    rw [run_of_tick_n k 1 s0 s1 htk]
    exact run_succ_false 0 s1 s1 hend
  | fault e m1 =>
    obtain ⟨k, s1, htk, hsim1, he⟩ := h
    refine ⟨k, .exited 2 e s1, ?_, ⟨rfl, rfl, hsim1⟩, fun c e2 s2 h2 => ?_⟩
    · have := run_of_tick_n_exited k 0 s0 s1 2 e htk
      rwa [Nat.add_zero] at this
    · simp only [tick_result.exited.injEq] at h2
      rw [← h2.2.1]; exact he

/-- Bytes that leave every open loop closed split into structured programs:
one up to the first closing bracket of an open loop, and one after each of
these closing brackets. -/
theorem bracket_depth_structure : ∀ (l : List Nat) (d : Nat), bracket_depth l d = some 0 →
    ∃ (p : bf_prog) (qs : List bf_prog), qs.length = d ∧ well_formed p ∧
      (∀ q ∈ qs, well_formed q) ∧ l = flatten p ++ closers qs := by
  intro l
  induction l with
  | nil =>
    intro d h
    simp only [bracket_depth, Option.some.injEq] at h
    exact ⟨.done, [], by simp [h], trivial, by simp, rfl⟩
  | cons c l ih =>
    intro d h
    rw [bracket_depth] at h
    by_cases h1 : c = 91
    · rw [if_pos h1] at h
      obtain ⟨p, qs, hq, hp, hqs, hl⟩ := ih (d + 1) h
      cases qs with
      | nil => simp at hq
      | cons q qs1 =>
        refine ⟨.loop p q, qs1, by simpa using hq, ⟨hp, hqs q (by simp)⟩,
          fun x hx => hqs x (by simp [hx]), ?_⟩
        rw [hl, h1]
        simp [flatten, closers]
    · rw [if_neg h1] at h
      by_cases h2 : c = 93
      · rw [if_pos h2] at h
        by_cases hd : d = 0
        · rw [if_pos hd] at h; cases h
        · rw [if_neg hd] at h
          obtain ⟨p, qs, hq, hp, hqs, hl⟩ := ih (d - 1) h
          refine ⟨.done, p :: qs, by simp [hq]; omega, trivial, ?_, ?_⟩
          · intro x hx
            rcases List.mem_cons.mp hx with rfl | hx
            · exact hp
            · exact hqs x hx
          · rw [hl, h2]
            simp [flatten, closers]
      · rw [if_neg h2] at h
        obtain ⟨p, qs, hq, hp, hqs, hl⟩ := ih d h
        refine ⟨.cmd c p, qs, hq, ⟨h1, h2, hp⟩, hqs, ?_⟩
        rw [hl]
        simp [flatten]

/-- Every program with balanced brackets is the byte form of a structured
program. -/
theorem balanced_structure (l : List Nat) (h : balanced l) :
    ∃ p, well_formed p ∧ flatten p = l := by
  obtain ⟨p, qs, hq, hp, _, hl⟩ := bracket_depth_structure l 0 h
  have : qs = [] := List.length_eq_zero.mp hq
  subst this
  exact ⟨p, hp, by rw [hl]; simp [closers]⟩

theorem bracket_depth_flatten : ∀ (p : bf_prog), well_formed p → ∀ (rest : List Nat) (d : Nat),
    bracket_depth (flatten p ++ rest) d = bracket_depth rest d := by
  intro p
  induction p with
  | done => intro _ rest d; rfl
  | cmd c r ih =>
    intro h rest d
    simp only [flatten, List.cons_append]
    rw [bracket_depth, if_neg h.1, if_neg h.2.1]
    exact ih h.2.2 rest d
  | loop body r ihb ihr =>
    intro h rest d
    simp only [flatten, List.cons_append, List.append_assoc]
    rw [bracket_depth, if_pos rfl, ihb h.1, bracket_depth, if_neg (by decide), if_pos rfl,
      if_neg (by omega)]
    exact ihr h.2 rest d

/-- The byte form of a structured program has balanced brackets. -/
theorem flatten_balanced (p : bf_prog) (h : well_formed p) : balanced (flatten p) := by
  have := bracket_depth_flatten p h [] 0
  rw [List.append_nil] at this
  exact this

/-- The run of the interpreter on the byte form of a structured program of
at most 30000 bytes agrees with the reference run of that program. -/
theorem run_refines_structured (p : bf_prog) (hwf : well_formed p)
    (hlen : (flatten p).length ≤ 30000) (heap : Int → Nat) (input : List Nat) :
    (∀ fuel r, ref_exec fuel p (ref_init input) = some r →
      ∃ k r1, run k (init_interpreter (flatten p) heap input) = some r1 ∧ agrees r1 r) ∧
    (∀ k r1, run k (init_interpreter (flatten p) heap input) = some r1 →
      ∃ fuel r, ref_exec fuel p (ref_init input) = some r ∧ agrees r1 r) ∧
    (∀ k c e s1, run k (init_interpreter (flatten p) heap input) = some (.exited c e s1) →
      e = .oob_right ∨ e = .oob_left) := by
  have hA : ∀ fuel, sim_outcome (load_exec (flatten p) heap) (flatten p).length MEMORY_SIZE
      fuel (init_interpreter (flatten p) heap input) (((flatten p).length : Nat) : Int)
      (ref_exec fuel p (ref_init input)) := by
    intro fuel
    have h := (sim_exec (load_exec (flatten p) heap) (flatten p).length MEMORY_SIZE hlen
      fuel).1 p (ref_init input) (init_interpreter (flatten p) heap input) 0 hwf
      (seg_load _ _) ⟨rfl, rfl, rfl⟩ rfl (le_refl 0) (by omega) ⟨rfl, rfl, rfl, rfl, rfl⟩
    rwa [zero_add] at h
  have hB : ∀ k r1, run k (init_interpreter (flatten p) heap input) = some r1 →
      ∃ fuel r, ref_exec fuel p (ref_init input) = some r ∧ agrees r1 r ∧
        ∀ c e s1, r1 = .exited c e s1 → e = .oob_right ∨ e = .oob_left := by
    intro k r1 hrun
    have h := hA (k + 1)
    cases href : ref_exec (k + 1) p (ref_init input) with
    | none =>
      rw [href] at h
      obtain ⟨k2, s2, hk, htk⟩ := h
      have hn := run_none_of_tick_n k2 _ s2 htk
      have hs := run_mono k _ _ hrun k2 (by omega)
      rw [hn] at hs
      cases hs
    | some r =>
      rw [href] at h
      obtain ⟨k1, r2, hrun1, hag, hno⟩ := outcome_gives_run _ _ _ _ _ _ h
      have e1 := run_mono k _ _ hrun (max k k1) (le_max_left _ _)
      have e2 := run_mono k1 _ _ hrun1 (max k k1) (le_max_right _ _)
      rw [e1] at e2
      have e3 : r1 = r2 := Option.some.inj e2
      subst e3
      exact ⟨k + 1, r, href, hag, hno⟩
  refine ⟨?_, ?_, ?_⟩
  · intro fuel r href
    have h := hA fuel
    rw [href] at h
    obtain ⟨k, r1, hrun, hag, _⟩ := outcome_gives_run _ _ _ _ _ _ h
    exact ⟨k, r1, hrun, hag⟩
  · intro k r1 hrun
    obtain ⟨fuel, r, href, hag, _⟩ := hB k r1 hrun
    exact ⟨fuel, r, href, hag⟩
  · intro k c e s1 hrun
    obtain ⟨_, _, _, _, hno⟩ := hB k _ hrun
    exact hno c e s1 rfl

/-- C18: for every program with balanced brackets of at most 30000 bytes,
every surrounding of the buffer and every input, the program is the byte
form of a structured program, and the run of `tick_interpreter` from the
state `init_interpreter` builds agrees with the reference run of that
structured program on the fresh tape. When the reference run ends, the
interpreter's run ends too, and when the interpreter's run ends, so does the
reference run; in both cases the two end alike: either both normally, or both
with the same out-of-bounds error, and with the same tape, memory pointer,
remaining input and output. No run of the interpreter exits with an
unmatched-bracket message. -/
theorem run_refines_reference (file : List Nat) (hbal : balanced file)
    (hlen : file.length ≤ 30000) (heap : Int → Nat) (input : List Nat) :
    (∃ p, well_formed p ∧ flatten p = file) ∧
    ∀ p, well_formed p → flatten p = file →
      (∀ fuel r, ref_exec fuel p (ref_init input) = some r →
        ∃ k r1, run k (init_interpreter file heap input) = some r1 ∧ agrees r1 r) ∧
      (∀ k r1, run k (init_interpreter file heap input) = some r1 →
        ∃ fuel r, ref_exec fuel p (ref_init input) = some r ∧ agrees r1 r) ∧
      (∀ k c e s1, run k (init_interpreter file heap input) = some (.exited c e s1) →
        e = .oob_right ∨ e = .oob_left) := by
  refine ⟨balanced_structure file hbal, ?_⟩
  intro p hwf hfl
  subst hfl
  exact run_refines_structured p hwf hlen heap input

/-- C18 on the program `[-]` with an empty input: its brackets are balanced,
the reference run of its structured form skips the loop and ends on the fresh
tape, and the interpreter's run ends normally in a state with the same tape,
pointer, input and output. -/
theorem run_refines_reference_witness :
    balanced [91, 45, 93] ∧ [91, 45, 93].length ≤ 30000 ∧
    ∃ k r1, run k (init_interpreter [91, 45, 93] (fun _ => 0) []) = some r1 ∧
      agrees r1 (.ok (ref_init [])) :=
  ⟨by decide, by decide,
    ((run_refines_reference [91, 45, 93] (by decide) (by decide) (fun _ => 0) []).2
      (.loop (.cmd 45 .done) .done) (by decide) rfl).1 2 (.ok (ref_init [])) rfl⟩

end Boyfriend
